import Mathlib

/-!
# cls_zlog: the per-object log-entry engine

A shallow embedding of `src/cls/zlog/cls_zlog.cc`: the layout calculation, the
metadata reader, the `init` / `read` / `write` / `invalidate` handlers of a data
object and the `view_init` / `view_read` handlers of a metadata object, run against
an in-memory model of the storage collaborator (the `cls_cxx_*` calls).

Machine integers are natural numbers; every sum or product the C++ code computes
in `uint64_t` carries an explicit `% 2 ^ 64`, and the one `unsigned` temporary an
explicit `% 2 ^ 32`.  Request and metadata fields keep their protobuf widths
through the types `U32` and `U64`.  The model assumes an LP64 platform, where
`sizeof(uint8_t)` has the 64-bit type `size_t`.  Buffers are lists of bytes and
their length is the list length; object sizes are the length of the byte list.
-/

namespace Zlog

/-! ## Scalars and messages -/

abbrev Byte := Fin 256
abbrev U32 := Fin 4294967296
abbrev U64 := Fin 18446744073709551616

/-- Values of `enum EntryState`. -/
def Unused : Byte := 0
def Taken : Byte := 1
def Invalid : Byte := 2

/-- Values of `errno.h` used by the handlers (returned negated). -/
def ENOENT : Int := 2
def EIO : Int := 5
def EFAULT : Int := 14
def EEXIST : Int := 17
def EINVAL : Int := 22
def EFBIG : Int := 27
def EROFS : Int := 30
def ENODATA : Int := 61

/-- Message `zlog_proto::MetaParams` (the striping parameters). -/
structure Params where
  entry_size : U32
  stripe_width : U32
  entries_per_object : U32
deriving DecidableEq, Repr

/-- Message `zlog_proto::ObjectMeta`. -/
structure ObjectMeta where
  params : Params
  object_id : U64
deriving DecidableEq, Repr

/-- Message `zlog_proto::View`. -/
structure View where
  epoch : U64
  num_stripes : U32
  params : Params
deriving DecidableEq, Repr

/-- Message `zlog_proto::InitOp`. -/
structure InitOp where
  params : Params
  object_id : U64
deriving DecidableEq, Repr

/-- Message `zlog_proto::ReadOp`. -/
structure ReadOp where
  position : U64
deriving DecidableEq, Repr

/-- Message `zlog_proto::WriteOp`. -/
structure WriteOp where
  position : U64
  data : List Byte
deriving DecidableEq, Repr

/-- Message `zlog_proto::InvalidateOp`. -/
structure InvalidateOp where
  position : U64
  force : Bool
deriving DecidableEq, Repr

/-- Modelled from the spec: the generated protobuf header `zlog.pb.h` and the codec
helpers of `common.h` are not part of the sources at hand.  The wire codec of the two
persisted messages is "opaque encode/decode" and the reply statuses of `ReadOp` are
the three named outcomes `OK`, `UNWRITTEN`, `INVALID`; all of them are taken as
parameters of the handlers. -/
structure Proto where
  encodeMeta : ObjectMeta → List Byte
  decodeMeta : List Byte → Option ObjectMeta
  encodeView : View → List Byte
  decodeView : List Byte → Option View
  OK : Int
  UNWRITTEN : Int
  INVALID : Int

/-! ## The storage collaborator -/

/-- One storage object: its bytes, its extended attributes and its sorted map. -/
structure Obj where
  data : List Byte
  xattrs : List (String × List Byte)
  omap : List (String × List Byte)
deriving DecidableEq, Repr

/-- The object with its bytes replaced. -/
def Obj.withData (o : Obj) (data : List Byte) : Obj := { o with data := data }

/-- The handler context addresses exactly one object, which may not exist yet. -/
abbrev cls_method_context_t := Option Obj

/-- The byte at index `i`, reading logical zero past the end. -/
def byteAt (data : List Byte) (i : Nat) : Byte := (data[i]?).getD 0

/-- The `n` bytes starting at index `a` (fewer when the list ends earlier). -/
def slice (data : List Byte) (a n : Nat) : List Byte := (data.drop a).take n

/-- Byte-range overwrite: the range `[ofs, ofs + bl.length)` becomes `bl`, the object
grows when the range ends past its size, and a gap between the old end and `ofs`
reads back as zeros. -/
def pwrite (data : List Byte) (ofs : Nat) (bl : List Byte) : List Byte :=
  let base := data ++ List.replicate (ofs - data.length) (0 : Byte)
  base.take ofs ++ bl ++ base.drop (ofs + bl.length)

/-- Modelled from the spec: `stat() -> (size, Error)` of the storage collaborator
(`cls_cxx_stat`, declared in `objclass.h`); a missing object is the not-found error. -/
def cls_cxx_stat (hctx : cls_method_context_t) : Int × Nat :=
  match hctx with
  | none => (- ENOENT, 0)
  | some o => (0, o.data.length)

/-- Modelled from the spec: `read(offset, length) -> (bytes, Error)` of the storage
collaborator (`cls_cxx_read`); it returns the bytes of the range that lie inside the
object and their count. -/
def cls_cxx_read (hctx : cls_method_context_t) (ofs len : Nat) : Int × List Byte :=
  match hctx with
  | none => (- ENOENT, [])
  | some o => (((slice o.data ofs len).length : Nat), slice o.data ofs len)

/-- Modelled from the spec: `write(offset, bytes) -> Error` of the storage collaborator
(`cls_cxx_write`); ranges never written read back zero-filled, and writing creates
the object. -/
def cls_cxx_write (hctx : cls_method_context_t) (ofs len : Nat) (bl : List Byte) :
    Int × cls_method_context_t :=
  let o := hctx.getD ⟨[], [], []⟩
  (0, some { o with data := pwrite o.data ofs (bl.take len) })

/-- Modelled from the spec: `get_attr(key) -> (bytes, Error)` of the storage
collaborator (`cls_cxx_getxattr`); it returns the length of the value. -/
def cls_cxx_getxattr (hctx : cls_method_context_t) (name : String) : Int × List Byte :=
  match hctx with
  | none => (- ENOENT, [])
  | some o =>
    match o.xattrs.lookup name with
    | none => (- ENODATA, [])
    | some bl => ((bl.length : Nat), bl)

/-- Modelled from the spec: `set_attr(key, bytes) -> Error` of the storage collaborator
(`cls_cxx_setxattr`); setting an attribute creates the object. -/
def cls_cxx_setxattr (hctx : cls_method_context_t) (name : String) (bl : List Byte) :
    Int × cls_method_context_t :=
  let o := hctx.getD ⟨[], [], []⟩
  (0, some { o with xattrs := (name, bl) :: o.xattrs.filter (fun kv => kv.1 != name) })

/-! ## cls_zlog.cc -/

/-- The three outputs of `calc_layout`. -/
structure Layout where
  objectno : Nat
  slot_size : Nat
  offset : Nat
deriving DecidableEq, Repr

/-- Function `calc_layout`: every intermediate value is a `uint64_t`. -/
def calc_layout (pos : U64) (stripe_width entries_per_object entry_size : U32) : Layout :=
  let stripe_num := pos.val / stripe_width.val
  let slot := stripe_num % entries_per_object.val
  let stripepos := pos.val % stripe_width.val
  let objectsetno := stripe_num / entries_per_object.val
  let objectno := (objectsetno * stripe_width.val % 2 ^ 64 + stripepos) % 2 ^ 64
  let slot_size := (1 + entry_size.val) % 2 ^ 64
  let offset := (slot * slot_size) % 2 ^ 64
  ⟨objectno, slot_size, offset⟩

/-- Function `read_meta`: the out-parameter is the success value, the negative
return code the error. -/
def read_meta (P : Proto) (hctx : cls_method_context_t) : Except Int ObjectMeta :=
  let r := cls_cxx_getxattr hctx "meta"
  if r.1 < 0 then
    if r.1 = - ENODATA ∨ r.1 = - ENOENT then .error (- EIO)
    else .error r.1
  else if r.2.length = 0 then .error (- EIO)
  else
    match P.decodeMeta r.2 with
    | none => .error (- EIO)
    | some omd => .ok omd

/-- The layout of a position under the geometry of a metadata record, as each
handler calls `calc_layout`. -/
def layoutOf (omd : ObjectMeta) (pos : U64) : Layout :=
  calc_layout pos omd.params.stripe_width omd.params.entries_per_object
    omd.params.entry_size

/-- Handler `init`; `none` is a request that failed to decode. -/
def init (P : Proto) (inp : Option InitOp) (hctx : cls_method_context_t) :
    Int × cls_method_context_t :=
  match inp with
  | none => (- EINVAL, hctx)
  | some op =>
    let ret := (cls_cxx_stat hctx).1
    if ret < 0 ∧ ret ≠ - ENOENT then (ret, hctx)
    else
      let got : Except (Int × cls_method_context_t) (ObjectMeta × cls_method_context_t) :=
        if ret = 0 then
          match read_meta P hctx with
          | .error e => .error (e, hctx)
          | .ok omd => .ok (omd, hctx)
        else
          let omd : ObjectMeta :=
            ⟨⟨op.params.entry_size, op.params.stripe_width, op.params.entries_per_object⟩,
              op.object_id⟩
          let w := cls_cxx_setxattr hctx "meta" (P.encodeMeta omd)
          if w.1 < 0 then .error (w.1, w.2) else .ok (omd, w.2)
      match got with
      | .error e => e
      | .ok (omd, hctx1) =>
        if omd.params.entry_size = 0 ∨ omd.params.stripe_width = 0 ∨
            omd.params.entries_per_object = 0 then (- EINVAL, hctx1)
        else if omd.params.entry_size ≠ op.params.entry_size ∨
            omd.params.stripe_width ≠ op.params.stripe_width ∨
            omd.params.entries_per_object ≠ op.params.entries_per_object ∨
            omd.object_id ≠ op.object_id then (- EINVAL, hctx1)
        else (0, hctx1)

/-- Handler `read`: the return code and the bytes appended to `out`.  The handler
never writes to the object. -/
def read (P : Proto) (inp : Option ReadOp) (hctx : cls_method_context_t) :
    Int × List Byte :=
  match inp with
  | none => (- EINVAL, [])
  | some op =>
    let st := cls_cxx_stat hctx
    if st.1 < 0 then (st.1, [])
    else
      match read_meta P hctx with
      | .error e => (e, [])
      | .ok omd =>
        if omd.params.entry_size = 0 ∨ omd.params.stripe_width = 0 ∨
            omd.params.entries_per_object = 0 then (- EIO, [])
        else
          let L := layoutOf omd op.position
          if omd.object_id.val ≠ L.objectno then (- EFAULT, [])
          else if (L.offset + L.slot_size) % 2 ^ 64 ≤ st.2 then
            let r := cls_cxx_read hctx L.offset L.slot_size
            if r.1 < 0 then (r.1, [])
            else if r.2.length ≠ L.slot_size then (- EIO, [])
            else
              let hdr := r.2.headD 0
              if hdr = Taken then (P.OK, (r.2.drop 1).take (L.slot_size - 1))
              else if hdr = Unused then (P.UNWRITTEN, [])
              else if hdr = Invalid then (P.INVALID, [])
              else (- EIO, [])
          else (P.UNWRITTEN, [])

/-- Handler `write`. -/
def write (P : Proto) (inp : Option WriteOp) (hctx : cls_method_context_t) :
    Int × cls_method_context_t :=
  match inp with
  | none => (- EINVAL, hctx)
  | some op =>
    let st := cls_cxx_stat hctx
    if st.1 < 0 then (st.1, hctx)
    else
      match read_meta P hctx with
      | .error e => (e, hctx)
      | .ok omd =>
        if omd.params.entry_size = 0 ∨ omd.params.stripe_width = 0 ∨
            omd.params.entries_per_object = 0 then (- EIO, hctx)
        else
          let L := layoutOf omd op.position
          if omd.object_id.val ≠ L.objectno then (- EFAULT, hctx)
          else
            let got : Except Int Byte :=
              if L.offset < st.2 then
                let r := cls_cxx_read hctx L.offset 1
                if r.1 < 0 then .error r.1
                else if r.2.length ≠ 1 then .error (- EIO)
                else .ok (r.2.headD 0)
              else .ok 0
            match got with
            | .error e => (e, hctx)
            | .ok hdr =>
              if hdr ≠ 0 then (- EEXIST, hctx)
              else if op.data.length + 1 > L.slot_size then (- EFBIG, hctx)
              else
                let data := [Taken] ++ op.data
                let remaining := (L.slot_size - data.length) % 2 ^ 32
                let data := if remaining ≠ 0 then data ++ List.replicate remaining 0 else data
                let w := cls_cxx_write hctx L.offset data.length data
                if w.1 < 0 then (w.1, w.2) else (0, w.2)

/-- Handler `invalidate`. -/
def invalidate (P : Proto) (inp : Option InvalidateOp) (hctx : cls_method_context_t) :
    Int × cls_method_context_t :=
  match inp with
  | none => (- EINVAL, hctx)
  | some op =>
    let st := cls_cxx_stat hctx
    if st.1 < 0 then (st.1, hctx)
    else
      match read_meta P hctx with
      | .error e => (e, hctx)
      | .ok omd =>
        if omd.params.entry_size = 0 ∨ omd.params.stripe_width = 0 ∨
            omd.params.entries_per_object = 0 then (- EIO, hctx)
        else
          let L := layoutOf omd op.position
          if omd.object_id.val ≠ L.objectno then (- EFAULT, hctx)
          else
            let got : Except Int Byte :=
              if L.offset < st.2 ∧ op.force = false then
                let r := cls_cxx_read hctx L.offset 1
                if r.1 < 0 then .error r.1
                else if r.2.length ≠ 1 then .error (- EIO)
                else .ok (r.2.headD 0)
              else .ok 0
            match got with
            | .error e => (e, hctx)
            | .ok hdr =>
              if hdr = Invalid then (0, hctx)
              else if hdr = 0 ∨ op.force = true then
                let data := [Invalid]
                let data :=
                  if L.offset ≥ st.2 then
                    let remaining := (L.slot_size - data.length) % 2 ^ 32
                    if remaining ≠ 0 then data ++ List.replicate remaining 0 else data
                  else data
                let w := cls_cxx_write hctx L.offset data.length data
                if w.1 < 0 then (w.1, w.2) else (0, w.2)
              else (- EROFS, hctx)

/-- The geometry check every handler applies to the persisted metadata. -/
def validMeta (omd : ObjectMeta) : Prop :=
  omd.params.entry_size ≠ 0 ∧ omd.params.stripe_width ≠ 0 ∧
    omd.params.entries_per_object ≠ 0

instance (omd : ObjectMeta) : Decidable (validMeta omd) := by
  unfold validMeta; infer_instance

/-- The zero padding that fills a slot after a payload of `n` bytes. -/
def padding (omd : ObjectMeta) (n : Nat) : List Byte :=
  List.replicate (omd.params.entry_size.val - n) 0

/-! ## Sequences of handler calls -/

/-- One request to a data object. -/
inductive Call where
  | init (inp : Option InitOp)
  | read (inp : Option ReadOp)
  | write (inp : Option WriteOp)
  | invalidate (inp : Option InvalidateOp)
deriving DecidableEq, Repr

/-- The return code of a call and the object after it. -/
def exec (P : Proto) (c : Call) (hctx : cls_method_context_t) :
    Int × cls_method_context_t :=
  match c with
  | Call.init i => init P i hctx
  | Call.read i => ((read P i hctx).1, hctx)
  | Call.write i => write P i hctx
  | Call.invalidate i => invalidate P i hctx

/-- The object after a sequence of calls. -/
def run (P : Proto) : List Call → cls_method_context_t → cls_method_context_t
  | [], hctx => hctx
  | c :: cs, hctx => run P cs (exec P c hctx).2

/-- The call is a write or an invalidate of position `p`. -/
def addresses (p : U64) : Call → Bool
  | Call.write (some op) => decide (op.position = p)
  | Call.invalidate (some op) => decide (op.position = p)
  | _ => false

/-- No write or invalidate of position `p` in the sequence returned success. -/
def untouched (P : Proto) (p : U64) : List Call → cls_method_context_t → Bool
  | [], _ => true
  | c :: cs, hctx =>
    !(addresses p c && decide ((exec P c hctx).1 = 0)) &&
      untouched P p cs (exec P c hctx).2

/-! ## A concrete codec for worked examples -/

/-- The four least significant base-256 digits of `n`, least significant first. -/
def le4 (n : Nat) : List Byte :=
  [Fin.ofNat n, Fin.ofNat (n / 256), Fin.ofNat (n / 65536), Fin.ofNat (n / 16777216)]

/-- A fixed-width example codec for the metadata record: four little-endian 4-byte
fields, the object id last (ids below `2 ^ 32` read back unchanged). -/
def exEncodeMeta (m : ObjectMeta) : List Byte :=
  le4 m.params.entry_size.val ++ le4 m.params.stripe_width.val ++
    le4 m.params.entries_per_object.val ++ le4 m.object_id.val

/-- Reads back four base-256 digits. -/
def un4 (a b c d : Byte) : Nat := a.val + 256 * b.val + 65536 * c.val + 16777216 * d.val

/-- Decoder of the example codec: exactly sixteen bytes, four fields. -/
def exDecodeMeta : List Byte → Option ObjectMeta
  | [a0, a1, a2, a3, b0, b1, b2, b3, c0, c1, c2, c3, d0, d1, d2, d3] =>
    some ⟨⟨Fin.ofNat (un4 a0 a1 a2 a3), Fin.ofNat (un4 b0 b1 b2 b3),
      Fin.ofNat (un4 c0 c1 c2 c3)⟩, Fin.ofNat (un4 d0 d1 d2 d3)⟩
  | _ => none

/-- The example protocol instance: the codec above, views unused, and the read
statuses numbered 0, 1, 2. -/
def exProto : Proto where
  encodeMeta := exEncodeMeta
  decodeMeta := exDecodeMeta
  encodeView := fun _ => []
  decodeView := fun _ => none
  OK := 0
  UNWRITTEN := 1
  INVALID := 2

/-- Geometry used in the examples: entries of 2 bytes, stripes of 4 objects,
2 entries per object. -/
def exParams : Params := ⟨2, 4, 2⟩

/-- The init request of object 0 under `exParams`. -/
def exInit : InitOp := ⟨exParams, 0⟩

/-- Object 0 right after its first `init`. -/
def exFresh : cls_method_context_t := (init exProto (some exInit) none).2

deriving instance DecidableEq for Except

/-- The metadata of the example object. -/
def exMeta : ObjectMeta := ⟨exParams, 0⟩

/-- The example object after `write(0, [120])`. -/
def exWritten : Obj := ⟨[1, 120, 0], [("meta", exEncodeMeta exMeta)], []⟩

/-- The example object after `write(0, [120])` and `invalidate(0, force)`. -/
def exInvalid : Obj := ⟨[2, 120, 0], [("meta", exEncodeMeta exMeta)], []⟩

/-- The example object before any write. -/
def exEmpty : Obj := ⟨[], [("meta", exEncodeMeta exMeta)], []⟩

/-- The metadata record `init` adopts for a missing object. -/
def InitOp.toMeta (r : InitOp) : ObjectMeta := ⟨r.params, r.object_id⟩

/-- The example object after a write to position 4 only: slot 0 is in range and unused. -/
def exSecond : Obj := ⟨[0, 0, 0, 1, 120, 0], [("meta", exEncodeMeta exMeta)], []⟩

/-- The object a first `init` of the example request creates. -/
def exFreshObj : Obj := ⟨[], [("meta", exEncodeMeta exMeta)], []⟩

/-- An object that carries no attribute at all. -/
def exNoMeta : Obj := ⟨[], [], []⟩

/-- An object whose metadata attribute is present but empty. -/
def exEmptyMeta : Obj := ⟨[], [("meta", [])], []⟩

/-- An object whose metadata attribute does not decode. -/
def exBadMeta : Obj := ⟨[], [("meta", [1, 2, 3])], []⟩

/-! ## Views -/

/-- Message `zlog_proto::ViewInitOp`. -/
structure ViewInitOp where
  num_stripes : U32
  params : Params
deriving DecidableEq, Repr

/-- Message `zlog_proto::ViewReadOp`. -/
structure ViewReadOp where
  min_epoch : U64
deriving DecidableEq, Repr

/-- Modelled from the spec: `map_get(key) -> (bytes, Error)` of the storage collaborator
(`cls_cxx_map_get_val`); a missing object or key is the not-found error. -/
def cls_cxx_map_get_val (hctx : cls_method_context_t) (key : String) : Int × List Byte :=
  match hctx with
  | none => (- ENOENT, [])
  | some o =>
    match o.omap.lookup key with
    | none => (- ENOENT, [])
    | some bl => (0, bl)

/-- Modelled from the spec: `map_set(key, bytes) -> Error` of the storage collaborator
(`cls_cxx_map_set_val`); setting a key creates the object. -/
def cls_cxx_map_set_val (hctx : cls_method_context_t) (key : String) (bl : List Byte) :
    Int × cls_method_context_t :=
  let o := hctx.getD ⟨[], [], []⟩
  (0, some { o with omap := (key, bl) :: o.omap.filter (fun kv => kv.1 != key) })

/-- Function `u64tostr`: the stream prints the prefix, then the decimal digits of the
value right-aligned in a field of width 20 filled with the character 0. -/
def u64tostr (value : U64) (pfx : String) : String :=
  ⟨pfx.data ++ List.replicate (20 - (Nat.toDigits 10 value.val).length) '0'
    ++ Nat.toDigits 10 value.val⟩

/-- Handler `view_init`. -/
def view_init (P : Proto) (inp : Option ViewInitOp) (hctx : cls_method_context_t) :
    Int × cls_method_context_t :=
  match inp with
  | none => (- EINVAL, hctx)
  | some op =>
    let ret := (cls_cxx_stat hctx).1
    if ret ≠ - ENOENT then
      if ret ≥ 0 then (- EEXIST, hctx) else (ret, hctx)
    else
      if op.num_stripes = 0 ∨ op.params.entry_size = 0 ∨ op.params.stripe_width = 0 ∨
          op.params.entries_per_object = 0 then (- EINVAL, hctx)
      else
        let epoch : U64 := 0
        let view : View :=
          ⟨epoch, op.num_stripes,
            ⟨op.params.entry_size, op.params.stripe_width, op.params.entries_per_object⟩⟩
        let key := u64tostr epoch "view.epoch."
        let w := cls_cxx_map_set_val hctx key (P.encodeView view)
        if w.1 < 0 then (w.1, w.2) else (0, w.2)

/-- The `while (true)` loop of `view_read`, run for at most `fuel` iterations: `none`
when the loop has not left by then, otherwise the error it returned or the views
collected when it reached a missing key. -/
def view_read_loop (P : Proto) (hctx : cls_method_context_t) :
    Nat → U64 → List View → Option (Except Int (List View))
  | 0, _, _ => none
  | fuel + 1, epoch, views =>
    let r := cls_cxx_map_get_val hctx (u64tostr epoch "view.epoch.")
    if r.1 < 0 ∧ r.1 ≠ - ENOENT then some (.error r.1)
    else if r.1 = - ENOENT then some (.ok views)
    else
      match P.decodeView r.2 with
      | none => some (.error (- EIO))
      | some view =>
        view_read_loop P hctx fuel (Fin.ofNat ((epoch.val + 1) % 2 ^ 64)) (views ++ [view])

/-- Handler `view_read`, its loop bounded by `fuel`: the return code and the views of
the reply message (the reply is returned before its encoding). -/
def view_read (P : Proto) (fuel : Nat) (inp : Option ViewReadOp)
    (hctx : cls_method_context_t) : Option (Int × List View) :=
  match inp with
  | none => some (- EINVAL, [])
  | some op =>
    let ret := (cls_cxx_stat hctx).1
    if ret ≠ 0 then some (ret, [])
    else
      match view_read_loop P hctx fuel op.min_epoch [] with
      | none => none
      | some (.error e) => some (e, [])
      | some (.ok views) =>
        if views.length = 0 then some (- EINVAL, []) else some (0, views)

/-- Example codec for views: the epoch and the four fields as five 4-byte groups. -/
def exEncodeView (v : View) : List Byte :=
  le4 v.epoch.val ++ le4 v.num_stripes.val ++ le4 v.params.entry_size.val ++
    le4 v.params.stripe_width.val ++ le4 v.params.entries_per_object.val

/-- Decoder of the example view codec: exactly twenty bytes, five fields. -/
def exDecodeView : List Byte → Option View
  | [e0, e1, e2, e3, n0, n1, n2, n3, a0, a1, a2, a3, b0, b1, b2, b3, c0, c1, c2, c3] =>
    some ⟨Fin.ofNat (un4 e0 e1 e2 e3), Fin.ofNat (un4 n0 n1 n2 n3),
      ⟨Fin.ofNat (un4 a0 a1 a2 a3), Fin.ofNat (un4 b0 b1 b2 b3),
        Fin.ofNat (un4 c0 c1 c2 c3)⟩⟩
  | _ => none

/-- The example protocol instance with the view codec in place. -/
def exViewProto : Proto where
  encodeMeta := exEncodeMeta
  decodeMeta := exDecodeMeta
  encodeView := exEncodeView
  decodeView := exDecodeView
  OK := 0
  UNWRITTEN := 1
  INVALID := 2

/-- The example view request: 3 stripes under `exParams`. -/
def exViewInit : ViewInitOp := ⟨3, exParams⟩

/-- The metadata object after its `view_init`. -/
def exViewObj : Obj :=
  ⟨[], [], [("view.epoch.00000000000000000000", exEncodeView ⟨0, 3, exParams⟩)]⟩

/-- An init request whose `entry_size` is zero. -/
def exZeroInit : InitOp := ⟨⟨0, 4, 2⟩, 0⟩

/-- The object a failed `init` of `exZeroInit` leaves behind. -/
def exZeroObj : Obj := ⟨[], [("meta", exEncodeMeta ⟨⟨0, 4, 2⟩, 0⟩)], []⟩

/-- The `w` low decimal digits of `n`, most significant first. -/
def fixedDigits : Nat → Nat → List Char
  | 0, _ => []
  | w + 1, n => fixedDigits w (n / 10) ++ [Nat.digitChar (n % 10)]

/-- The eight least significant base-256 digits of `n`, least significant first. -/
def le8 (n : Nat) : List Byte := le4 n ++ le4 (n / 4294967296)

/-- Example codec for views that keeps all 64 bits of the epoch: an 8-byte epoch and
four 4-byte fields. -/
def exEncodeViewWide (v : View) : List Byte :=
  le8 v.epoch.val ++ le4 v.num_stripes.val ++ le4 v.params.entry_size.val ++
    le4 v.params.stripe_width.val ++ le4 v.params.entries_per_object.val

/-- Decoder of the wide example view codec: exactly twenty-four bytes. -/
def exDecodeViewWide : List Byte → Option View
  | [e0, e1, e2, e3, e4, e5, e6, e7, n0, n1, n2, n3, a0, a1, a2, a3, b0, b1, b2, b3,
      c0, c1, c2, c3] =>
    some ⟨Fin.ofNat (un4 e0 e1 e2 e3 + 4294967296 * un4 e4 e5 e6 e7),
      Fin.ofNat (un4 n0 n1 n2 n3),
      ⟨Fin.ofNat (un4 a0 a1 a2 a3), Fin.ofNat (un4 b0 b1 b2 b3),
        Fin.ofNat (un4 c0 c1 c2 c3)⟩⟩
  | _ => none

/-- The example protocol instance with the wide view codec. -/
def exWideProto : Proto where
  encodeMeta := exEncodeMeta
  decodeMeta := exDecodeMeta
  encodeView := exEncodeViewWide
  decodeView := exDecodeViewWide
  OK := 0
  UNWRITTEN := 1
  INVALID := 2

/-- A metadata object that holds views under the keys of the last epoch
`2 ^ 64 - 1` and of epoch 0, and no other key. -/
def exWrapObj : Obj :=
  ⟨[], [], [("view.epoch.18446744073709551615",
      exEncodeViewWide ⟨18446744073709551615, 3, exParams⟩),
    ("view.epoch.00000000000000000000", exEncodeViewWide ⟨0, 3, exParams⟩)]⟩

/-- A metadata object that holds one view, under the key of the last epoch. -/
def exLastObj : Obj :=
  ⟨[], [], [("view.epoch.18446744073709551615",
      exEncodeViewWide ⟨18446744073709551615, 3, exParams⟩)]⟩

/-! ## Layout arithmetic -/

theorem U32_ne_zero_pos {x : U32} (h : x ≠ 0) : 0 < x.val := by
  rcases Nat.eq_zero_or_pos x.val with h0 | h0
  · exact absurd (Fin.ext h0) h
  · exact h0

/-- The reference layout over the naturals. -/
theorem layout_nowrap (pos : U64) (sw epo es : U32) (hepo : epo ≠ 0) :
    pos.val / sw.val / epo.val * sw.val + pos.val % sw.val ≤ pos.val ∧
    pos.val / sw.val / epo.val * sw.val < 2 ^ 64 ∧
    pos.val / sw.val % epo.val * (1 + es.val) + (1 + es.val) < 2 ^ 64 := by
  have hp := pos.isLt
  have he := es.isLt
  have hepo0 := U32_ne_zero_pos hepo
  have hepo1 := epo.isLt
  have h1 : pos.val / sw.val / epo.val ≤ pos.val / sw.val := Nat.div_le_self _ _
  have h2 : pos.val / sw.val / epo.val * sw.val ≤ pos.val / sw.val * sw.val :=
    Nat.mul_le_mul_right _ h1
  have h3 : pos.val / sw.val * sw.val + pos.val % sw.val = pos.val := by
    rw [Nat.mul_comm]; exact Nat.div_add_mod _ _
  have h4 : pos.val / sw.val % epo.val < epo.val := Nat.mod_lt _ hepo0
  have h5 : pos.val / sw.val % epo.val * (1 + es.val) ≤ 4294967294 * 4294967296 :=
    Nat.mul_le_mul (by omega) (by omega)
  refine ⟨by omega, by omega, by omega⟩

theorem calc_layout_val (pos : U64) (sw epo es : U32) (hepo : epo ≠ 0) :
    calc_layout pos sw epo es =
      ⟨pos.val / sw.val / epo.val * sw.val + pos.val % sw.val, 1 + es.val,
        pos.val / sw.val % epo.val * (1 + es.val)⟩ := by
  obtain ⟨h1, h2, h3⟩ := layout_nowrap pos sw epo es hepo
  have he := es.isLt
  have hp := pos.isLt
  have a1 : (1 + es.val) % 2 ^ 64 = 1 + es.val := Nat.mod_eq_of_lt (by omega)
  have a2 : pos.val / sw.val / epo.val * sw.val % 2 ^ 64
      = pos.val / sw.val / epo.val * sw.val := Nat.mod_eq_of_lt h2
  have a3 : (pos.val / sw.val / epo.val * sw.val + pos.val % sw.val) % 2 ^ 64
      = pos.val / sw.val / epo.val * sw.val + pos.val % sw.val := Nat.mod_eq_of_lt (by omega)
  have a4 : pos.val / sw.val % epo.val * (1 + es.val) % 2 ^ 64
      = pos.val / sw.val % epo.val * (1 + es.val) := Nat.mod_eq_of_lt (by omega)
  simp only [calc_layout, a1, a2, a3, a4]

theorem layout_inj (p q : U64) (sw epo es : U32) (hsw : sw ≠ 0) (hepo : epo ≠ 0)
    (hobj : (calc_layout p sw epo es).objectno = (calc_layout q sw epo es).objectno)
    (hoff : (calc_layout p sw epo es).offset = (calc_layout q sw epo es).offset) :
    p = q := by
  rw [calc_layout_val p sw epo es hepo, calc_layout_val q sw epo es hepo] at hobj hoff
  simp only at hobj hoff
  have hsw0 := U32_ne_zero_pos hsw
  have hepo0 := U32_ne_zero_pos hepo
  have hs1 : 0 < 1 + es.val := by omega
  have hslot : p.val / sw.val % epo.val = q.val / sw.val % epo.val :=
    Nat.eq_of_mul_eq_mul_right hs1 hoff
  have hmp : p.val % sw.val < sw.val := Nat.mod_lt _ hsw0
  have hmq : q.val % sw.val < sw.val := Nat.mod_lt _ hsw0
  have hdiv : p.val / sw.val / epo.val = q.val / sw.val / epo.val := by
    have e1 : (p.val / sw.val / epo.val * sw.val + p.val % sw.val) / sw.val
        = p.val / sw.val / epo.val := by
      rw [Nat.mul_comm, Nat.mul_add_div hsw0, Nat.div_eq_of_lt hmp, Nat.add_zero]
    have e2 : (q.val / sw.val / epo.val * sw.val + q.val % sw.val) / sw.val
        = q.val / sw.val / epo.val := by
      rw [Nat.mul_comm, Nat.mul_add_div hsw0, Nat.div_eq_of_lt hmq, Nat.add_zero]
    rw [← e1, ← e2, hobj]
  have hmod : p.val % sw.val = q.val % sw.val := by
    rw [hdiv] at hobj; omega
  have hsn : p.val / sw.val = q.val / sw.val := by
    rw [← Nat.div_add_mod (p.val / sw.val) epo.val, ← Nat.div_add_mod (q.val / sw.val) epo.val,
      hdiv, hslot]
  apply Fin.ext
  rw [← Nat.div_add_mod p.val sw.val, ← Nat.div_add_mod q.val sw.val, hsn, hmod]

/-! ## The byte store -/

theorem length_pwrite (data : List Byte) (ofs : Nat) (bl : List Byte) :
    (pwrite data ofs bl).length = max data.length (ofs + bl.length) := by
  simp only [pwrite, List.length_append, List.length_take, List.length_drop,
    List.length_replicate]
  omega

theorem byteAt_pwrite (data : List Byte) (ofs : Nat) (bl : List Byte) (i : Nat) :
    byteAt (pwrite data ofs bl) i =
      if ofs ≤ i ∧ i < ofs + bl.length then byteAt bl (i - ofs) else byteAt data i := by
  unfold byteAt pwrite
  have hlen : (data ++ List.replicate (ofs - data.length) (0 : Byte)).length
      = max data.length ofs := by
    simp only [List.length_append, List.length_replicate]; omega
  have hbase : ∀ j : Nat, ((data ++ List.replicate (ofs - data.length) (0 : Byte))[j]?).getD 0
      = (data[j]?).getD 0 := by
    intro j
    by_cases hj : j < data.length
    · rw [List.getElem?_append_left hj]
    · rw [List.getElem?_append_right (by omega), List.getElem?_replicate]
      rw [List.getElem?_eq_none (by omega)]
      split <;> rfl
  by_cases h1 : i < ofs
  · have : ¬ (ofs ≤ i ∧ i < ofs + bl.length) := by omega
    rw [if_neg this, List.append_assoc, List.getElem?_append_left
      (by rw [List.length_take, hlen]; omega), List.getElem?_take, if_pos h1]
    exact hbase i
  · by_cases h2 : i < ofs + bl.length
    · rw [if_pos ⟨by omega, h2⟩, List.append_assoc, List.getElem?_append_right
        (by rw [List.length_take, hlen]; omega), List.length_take, hlen,
        List.getElem?_append_left (by omega)]
      congr 2
      omega
    · have : ¬ (ofs ≤ i ∧ i < ofs + bl.length) := by omega
      rw [if_neg this, List.append_assoc, List.getElem?_append_right
        (by rw [List.length_take, hlen]; omega), List.length_take, hlen,
        List.getElem?_append_right (by omega), List.getElem?_drop]
      have e : ofs + bl.length + (i - min ofs (max data.length ofs) - bl.length) = i := by omega
      rw [e]
      exact hbase i

theorem length_slice (data : List Byte) (a n : Nat) :
    (slice data a n).length = min n (data.length - a) := by
  simp [slice, List.length_take, List.length_drop]

theorem getElem?_slice (data : List Byte) (a n j : Nat) :
    (slice data a n)[j]? = if j < n then data[a + j]? else none := by
  simp only [slice, List.getElem?_take, List.getElem?_drop]

theorem slice_ext (d1 d2 : List Byte) (a n : Nat) (h1 : a + n ≤ d1.length)
    (h2 : a + n ≤ d2.length) (h : ∀ i, a ≤ i → i < a + n → byteAt d1 i = byteAt d2 i) :
    slice d1 a n = slice d2 a n := by
  apply List.ext_getElem?
  intro j
  rw [getElem?_slice, getElem?_slice]
  split
  · rename_i hj
    have := h (a + j) (by omega) (by omega)
    unfold byteAt at this
    rw [List.getElem?_eq_getElem (by omega), List.getElem?_eq_getElem (by omega)] at this ⊢
    simpa using this
  · rfl

theorem slice_pwrite_self (data : List Byte) (ofs : Nat) (bl : List Byte) :
    slice (pwrite data ofs bl) ofs bl.length = bl := by
  apply List.ext_getElem?
  intro j
  rw [getElem?_slice]
  split
  · rename_i hj
    have hb := byteAt_pwrite data ofs bl (ofs + j)
    rw [if_pos ⟨by omega, by omega⟩] at hb
    unfold byteAt at hb
    have hl := length_pwrite data ofs bl
    rw [List.getElem?_eq_getElem (by omega)] at hb ⊢
    have e : ofs + j - ofs = j := by omega
    rw [e, List.getElem?_eq_getElem hj] at hb
    rw [List.getElem?_eq_getElem hj]
    simpa using hb
  · rename_i hj
    rw [List.getElem?_eq_none (by omega)]

theorem headD_slice (data : List Byte) (a n : Nat) (hn : 0 < n) :
    (slice data a n).headD 0 = byteAt data a := by
  unfold byteAt
  have := getElem?_slice data a n 0
  rw [if_pos hn] at this
  simp only [Nat.add_zero] at this
  rw [← this]
  cases slice data a n with
  | nil => rfl
  | cons x xs => simp

theorem pwrite_same (data : List Byte) (ofs : Nat) (b : Byte) (h : ofs < data.length)
    (hb : byteAt data ofs = b) : pwrite data ofs [b] = data := by
  apply List.ext_getElem?
  intro j
  have hl := length_pwrite data ofs [b]
  simp only [List.length_singleton] at hl
  have hbj := byteAt_pwrite data ofs [b] j
  simp only [List.length_singleton] at hbj
  by_cases hj : j < data.length
  · unfold byteAt at hbj hb
    rw [List.getElem?_eq_getElem (by omega), List.getElem?_eq_getElem hj] at hbj ⊢
    simp only [Option.getD_some] at hbj
    rw [hbj]
    split
    · rename_i hc
      have : j = ofs := by omega
      subst this
      rw [List.getElem?_eq_getElem hj] at hb
      simp at hb ⊢
      exact hb.symm
    · rfl
  · rw [List.getElem?_eq_none (by omega), List.getElem?_eq_none (by omega)]

/-! ## The handlers on an initialised object -/

theorem layoutOf_val (omd : ObjectMeta) (p : U64) (hv : validMeta omd) :
    layoutOf omd p =
      ⟨p.val / omd.params.stripe_width.val / omd.params.entries_per_object.val
          * omd.params.stripe_width.val + p.val % omd.params.stripe_width.val,
        1 + omd.params.entry_size.val,
        p.val / omd.params.stripe_width.val % omd.params.entries_per_object.val
          * (1 + omd.params.entry_size.val)⟩ :=
  calc_layout_val p _ _ _ hv.2.2

theorem layoutOf_slot_size (omd : ObjectMeta) (p : U64) (hv : validMeta omd) :
    (layoutOf omd p).slot_size = 1 + omd.params.entry_size.val := by
  rw [layoutOf_val omd p hv]

theorem layoutOf_end_lt (omd : ObjectMeta) (p : U64) (hv : validMeta omd) :
    (layoutOf omd p).offset + (layoutOf omd p).slot_size < 2 ^ 64 := by
  rw [layoutOf_val omd p hv]
  exact (layout_nowrap p _ _ _ hv.2.2).2.2

theorem validMeta_not_zero (omd : ObjectMeta) (hv : validMeta omd) :
    ¬ (omd.params.entry_size = 0 ∨ omd.params.stripe_width = 0 ∨
      omd.params.entries_per_object = 0) := by
  rintro (h | h | h)
  · exact hv.1 h
  · exact hv.2.1 h
  · exact hv.2.2 h

theorem write_eq (P : Proto) (o : Obj) (omd : ObjectMeta) (p : U64) (d : List Byte)
    (hm : read_meta P (some o) = .ok omd) (hv : validMeta omd)
    (ht : omd.object_id.val = (layoutOf omd p).objectno) :
    write P (some ⟨p, d⟩) (some o) =
      if byteAt o.data (layoutOf omd p).offset ≠ 0 then (- EEXIST, some o)
      else if omd.params.entry_size.val < d.length then (- EFBIG, some o)
      else (0, some (o.withData
        (pwrite o.data (layoutOf omd p).offset (Taken :: d ++ padding omd d.length)))) := by
  have hss := layoutOf_slot_size omd p hv
  have hes := omd.params.entry_size.isLt
  have hhdr : (if (layoutOf omd p).offset < o.data.length then
      (if (cls_cxx_read (some o) (layoutOf omd p).offset 1).1 < 0 then
          Except.error (cls_cxx_read (some o) (layoutOf omd p).offset 1).1
        else if (cls_cxx_read (some o) (layoutOf omd p).offset 1).2.length ≠ 1 then
          Except.error (- EIO)
        else Except.ok ((cls_cxx_read (some o) (layoutOf omd p).offset 1).2.headD 0))
      else Except.ok 0 : Except Int Byte) = Except.ok (byteAt o.data (layoutOf omd p).offset) := by
    by_cases hlt : (layoutOf omd p).offset < o.data.length
    · have hl : (slice o.data (layoutOf omd p).offset 1).length = 1 := by
        rw [length_slice]; omega
      simp only [if_pos hlt, cls_cxx_read, hl, headD_slice _ _ _ Nat.one_pos]
      simp
    · rw [if_neg hlt]
      unfold byteAt
      rw [List.getElem?_eq_none (by omega)]
      rfl
  simp only [write, cls_cxx_stat, hm, validMeta_not_zero omd hv, ht, hhdr]
  simp only [lt_self_iff_false, if_false, ne_eq, not_true_eq_false]
  by_cases hz : byteAt o.data (layoutOf omd p).offset = 0
  · simp only [hz, not_true_eq_false, if_false, hss]
    by_cases hbig : omd.params.entry_size.val < d.length
    · have : d.length + 1 > 1 + omd.params.entry_size.val := by omega
      simp only [this, hbig, if_true]
    · have h1 : ¬ (d.length + 1 > 1 + omd.params.entry_size.val) := by omega
      have hrem : (1 + omd.params.entry_size.val - ([Taken] ++ d).length) % 2 ^ 32
          = omd.params.entry_size.val - d.length := by
        simp only [List.singleton_append, List.length_cons]
        rw [Nat.mod_eq_of_lt (by omega)]
        omega
      simp only [h1, hbig, if_false, hrem, cls_cxx_write, Option.getD_some, padding, Obj.withData]
      by_cases hr : omd.params.entry_size.val - d.length = 0
      · simp [hr]
      · simp only [hr, ne_eq, not_false_eq_true, if_true]
        rw [List.take_of_length_le (le_refl _)]
        rfl
  · simp only [hz, not_false_eq_true, if_true]


theorem invalidate_eq (P : Proto) (o : Obj) (omd : ObjectMeta) (p : U64) (f : Bool)
    (hm : read_meta P (some o) = .ok omd) (hv : validMeta omd)
    (ht : omd.object_id.val = (layoutOf omd p).objectno) :
    invalidate P (some ⟨p, f⟩) (some o) =
      if f = false ∧ byteAt o.data (layoutOf omd p).offset = Invalid then (0, some o)
      else if f = true ∨ byteAt o.data (layoutOf omd p).offset = 0 then
        (0, some (o.withData (pwrite o.data (layoutOf omd p).offset
          (Invalid :: if o.data.length ≤ (layoutOf omd p).offset then padding omd 0 else []))))
      else (- EROFS, some o) := by
  have hss := layoutOf_slot_size omd p hv
  have hes := omd.params.entry_size.isLt
  have hes0 : omd.params.entry_size.val ≠ 0 := fun h => hv.1 (Fin.ext h)
  have hhdr : (if (layoutOf omd p).offset < o.data.length ∧ f = false then
      (if (cls_cxx_read (some o) (layoutOf omd p).offset 1).1 < 0 then
          Except.error (cls_cxx_read (some o) (layoutOf omd p).offset 1).1
        else if (cls_cxx_read (some o) (layoutOf omd p).offset 1).2.length ≠ 1 then
          Except.error (- EIO)
        else Except.ok ((cls_cxx_read (some o) (layoutOf omd p).offset 1).2.headD 0))
      else Except.ok 0 : Except Int Byte)
      = Except.ok (if f = false then byteAt o.data (layoutOf omd p).offset else 0) := by
    cases f with
    | true => simp
    | false =>
      by_cases hlt : (layoutOf omd p).offset < o.data.length
      · have hl : (slice o.data (layoutOf omd p).offset 1).length = 1 := by
          rw [length_slice]; omega
        simp only [hlt, and_self, if_true, cls_cxx_read, hl, headD_slice _ _ _ Nat.one_pos]
        simp
      · have : byteAt o.data (layoutOf omd p).offset = 0 := by
          unfold byteAt
          rw [List.getElem?_eq_none (by omega)]
          rfl
        simp only [hlt, false_and, if_false, this, if_true]
  simp only [invalidate, cls_cxx_stat, hm, validMeta_not_zero omd hv, ht, hhdr]
  simp only [lt_self_iff_false, if_false, ne_eq, not_true_eq_false]
  have hrem : (1 + omd.params.entry_size.val - [Invalid].length) % 2 ^ 32
      = omd.params.entry_size.val := by
    simp only [List.length_singleton]
    rw [Nat.mod_eq_of_lt (by omega)]
    omega
  have hI : (0 : Byte) ≠ Invalid := by decide
  cases f with
  | true =>
    simp only [if_false, hI, Bool.true_eq_false, false_and, true_or, if_true, hss, hrem,
      cls_cxx_write, Option.getD_some, padding, Obj.withData, ge_iff_le, hes0, not_false_eq_true, Nat.sub_zero]
    by_cases hge : o.data.length ≤ (layoutOf omd p).offset
    · simp only [hge, if_true, lt_self_iff_false, if_false]
      rw [List.take_of_length_le (le_refl _)]
      rfl
    · simp only [hge, if_false, lt_self_iff_false]
      rfl
  | false =>
    simp only [if_true, true_and, Bool.false_eq_true, false_or]
    by_cases h2 : byteAt o.data (layoutOf omd p).offset = Invalid
    · simp only [h2, if_true]
    · simp only [h2, if_false]
      by_cases h0 : byteAt o.data (layoutOf omd p).offset = 0
      · simp only [h0, if_true, hss, hrem, cls_cxx_write, Option.getD_some, padding, Obj.withData, ge_iff_le,
          hes0, not_false_eq_true, Nat.sub_zero, lt_self_iff_false, if_false]
        by_cases hge : o.data.length ≤ (layoutOf omd p).offset
        · simp only [hge, if_true]
          rw [List.take_of_length_le (le_refl _)]
          rfl
        · simp only [hge, if_false]
          rfl
      · simp only [h0, or_self, if_false]

theorem read_eq (P : Proto) (o : Obj) (omd : ObjectMeta) (p : U64)
    (hm : read_meta P (some o) = .ok omd) (hv : validMeta omd)
    (ht : omd.object_id.val = (layoutOf omd p).objectno) :
    read P (some ⟨p⟩) (some o) =
      if (layoutOf omd p).offset + (1 + omd.params.entry_size.val) ≤ o.data.length then
        if byteAt o.data (layoutOf omd p).offset = Taken then
          (P.OK, slice o.data ((layoutOf omd p).offset + 1) omd.params.entry_size.val)
        else if byteAt o.data (layoutOf omd p).offset = Unused then (P.UNWRITTEN, [])
        else if byteAt o.data (layoutOf omd p).offset = Invalid then (P.INVALID, [])
        else (- EIO, [])
      else (P.UNWRITTEN, []) := by
  have hss := layoutOf_slot_size omd p hv
  have hend := layoutOf_end_lt omd p hv
  rw [hss] at hend
  simp only [read, cls_cxx_stat, hm, validMeta_not_zero omd hv, ht, hss,
    Nat.mod_eq_of_lt hend]
  simp only [lt_self_iff_false, if_false, ne_eq, not_true_eq_false]
  by_cases hin : (layoutOf omd p).offset + (1 + omd.params.entry_size.val) ≤ o.data.length
  · have hl : (slice o.data (layoutOf omd p).offset (1 + omd.params.entry_size.val)).length
        = 1 + omd.params.entry_size.val := by
      rw [length_slice]; omega
    have hpay : List.take (1 + omd.params.entry_size.val - 1)
        (List.drop 1 (slice o.data (layoutOf omd p).offset (1 + omd.params.entry_size.val)))
        = slice o.data ((layoutOf omd p).offset + 1) omd.params.entry_size.val := by
      apply List.ext_getElem?
      intro j
      rw [getElem?_slice, List.getElem?_take, List.getElem?_drop, getElem?_slice]
      by_cases hj : j < omd.params.entry_size.val
      · have h1 : j < 1 + omd.params.entry_size.val - 1 := by omega
        have h2 : 1 + j < 1 + omd.params.entry_size.val := by omega
        rw [if_pos h1, if_pos h2, if_pos hj]
        congr 1
        omega
      · have h1 : ¬ j < 1 + omd.params.entry_size.val - 1 := by omega
        rw [if_neg h1, if_neg hj]
    have hneg : ¬ (((1 + omd.params.entry_size.val : Nat) : Int) < 0) := by omega
    have hpos : 0 < 1 + omd.params.entry_size.val := by omega
    simp only [if_pos hin, cls_cxx_read, hl, hpay, headD_slice _ _ _ hpos, hneg, if_false,
      not_true_eq_false]
  · simp only [if_neg hin]

/-! ## The effect of one call -/

theorem read_meta_withData (P : Proto) (o : Obj) (data : List Byte) :
    read_meta P (some (o.withData data)) = read_meta P (some o) := rfl

theorem init_existing (P : Proto) (i : Option InitOp) (o : Obj) :
    (init P i (some o)).2 = some o := by
  cases i with
  | none => rfl
  | some op =>
    simp only [init, cls_cxx_stat]
    cases read_meta P (some o) with
    | error e => simp
    | ok omd =>
      simp only [lt_self_iff_false, false_and, if_false, if_true]
      split_ifs <;> rfl

theorem write_unchanged (P : Proto) (o : Obj) (omd : ObjectMeta) (q : U64) (d : List Byte)
    (hm : read_meta P (some o) = .ok omd)
    (h : ¬ (validMeta omd ∧ omd.object_id.val = (layoutOf omd q).objectno)) :
    (write P (some ⟨q, d⟩) (some o)).2 = some o := by
  simp only [write, cls_cxx_stat, hm, lt_self_iff_false, if_false]
  by_cases hv : validMeta omd
  · have ht : omd.object_id.val ≠ (layoutOf omd q).objectno := fun e => h ⟨hv, e⟩
    simp only [validMeta_not_zero omd hv, if_false, ne_eq, ht, not_false_eq_true, if_true]
  · have : omd.params.entry_size = 0 ∨ omd.params.stripe_width = 0 ∨
        omd.params.entries_per_object = 0 := by
      unfold validMeta at hv
      by_contra hc
      simp only [not_or] at hc
      exact hv hc
    simp only [this, if_true]

theorem invalidate_unchanged (P : Proto) (o : Obj) (omd : ObjectMeta) (q : U64) (f : Bool)
    (hm : read_meta P (some o) = .ok omd)
    (h : ¬ (validMeta omd ∧ omd.object_id.val = (layoutOf omd q).objectno)) :
    (invalidate P (some ⟨q, f⟩) (some o)).2 = some o := by
  simp only [invalidate, cls_cxx_stat, hm, lt_self_iff_false, if_false]
  by_cases hv : validMeta omd
  · have ht : omd.object_id.val ≠ (layoutOf omd q).objectno := fun e => h ⟨hv, e⟩
    simp only [validMeta_not_zero omd hv, if_false, ne_eq, ht, not_false_eq_true, if_true]
  · have : omd.params.entry_size = 0 ∨ omd.params.stripe_width = 0 ∨
        omd.params.entries_per_object = 0 := by
      unfold validMeta at hv
      by_contra hc
      simp only [not_or] at hc
      exact hv hc
    simp only [this, if_true]

/-- What one call does to an initialised object: nothing, or the slot write of a
successful `write`, or the header write of a successful `invalidate`. -/
theorem exec_effect (P : Proto) (o : Obj) (omd : ObjectMeta) (c : Call)
    (hm : read_meta P (some o) = .ok omd) :
    (exec P c (some o)).2 = some o ∨
    (validMeta omd ∧ ∃ q d, c = Call.write (some ⟨q, d⟩) ∧
      omd.object_id.val = (layoutOf omd q).objectno ∧
      byteAt o.data (layoutOf omd q).offset = 0 ∧
      d.length ≤ omd.params.entry_size.val ∧
      exec P c (some o) = (0, some (o.withData
        (pwrite o.data (layoutOf omd q).offset (Taken :: d ++ padding omd d.length))))) ∨
    (validMeta omd ∧ ∃ q f, c = Call.invalidate (some ⟨q, f⟩) ∧
      omd.object_id.val = (layoutOf omd q).objectno ∧
      (f = true ∨ byteAt o.data (layoutOf omd q).offset = 0) ∧
      exec P c (some o) = (0, some (o.withData (pwrite o.data (layoutOf omd q).offset
        (Invalid :: if o.data.length ≤ (layoutOf omd q).offset then padding omd 0 else []))))) := by
  cases c with
  | init i => exact Or.inl (init_existing P i o)
  | read i => exact Or.inl rfl
  | write i =>
    cases i with
    | none => exact Or.inl rfl
    | some op =>
      obtain ⟨q, d⟩ := op
      by_cases h : validMeta omd ∧ omd.object_id.val = (layoutOf omd q).objectno
      · obtain ⟨hv, ht⟩ := h
        have he := write_eq P o omd q d hm hv ht
        by_cases hz : byteAt o.data (layoutOf omd q).offset = 0
        · by_cases hbig : omd.params.entry_size.val < d.length
          · left
            simp only [exec, he, hz, ne_eq, not_true_eq_false, if_false, hbig, if_true]
          · right; left
            refine ⟨hv, q, d, rfl, ht, hz, by omega, ?_⟩
            simp only [exec, he, hz, ne_eq, not_true_eq_false, if_false, hbig]
        · left
          simp only [exec, he, ne_eq, hz, not_false_eq_true, if_true]
      · exact Or.inl (write_unchanged P o omd q d hm h)
  | invalidate i =>
    cases i with
    | none => exact Or.inl rfl
    | some op =>
      obtain ⟨q, f⟩ := op
      by_cases h : validMeta omd ∧ omd.object_id.val = (layoutOf omd q).objectno
      · obtain ⟨hv, ht⟩ := h
        have he := invalidate_eq P o omd q f hm hv ht
        by_cases h1 : f = false ∧ byteAt o.data (layoutOf omd q).offset = Invalid
        · left
          simp only [exec]
          rw [he, if_pos h1]
        · by_cases h2 : f = true ∨ byteAt o.data (layoutOf omd q).offset = 0
          · right; right
            refine ⟨hv, q, f, rfl, ht, h2, ?_⟩
            simp only [exec, he, h1, if_false, h2, if_true]
          · left
            simp only [exec, he, h1, if_false, h2]
      · exact Or.inl (invalidate_unchanged P o omd q f hm h)

theorem slot_disjoint (a b s i : Nat) (hab : a ≠ b) (h1 : a * s ≤ i) (h2 : i < a * s + s) :
    ¬ (b * s ≤ i ∧ i < b * s + s) := by
  rintro ⟨h3, h4⟩
  rcases Nat.lt_or_gt_of_ne hab with h | h
  · have : (a + 1) * s ≤ b * s := Nat.mul_le_mul_right s h
    rw [Nat.add_mul, Nat.one_mul] at this
    omega
  · have : (b + 1) * s ≤ a * s := Nat.mul_le_mul_right s h
    rw [Nat.add_mul, Nat.one_mul] at this
    omega

/-- The slot index of a position inside its object. -/
theorem layoutOf_offset (omd : ObjectMeta) (p : U64) (hv : validMeta omd) :
    (layoutOf omd p).offset =
      p.val / omd.params.stripe_width.val % omd.params.entries_per_object.val
        * (1 + omd.params.entry_size.val) := by
  rw [layoutOf_val omd p hv]

/-- Two positions of one object either coincide or occupy disjoint slots. -/
theorem slots_disjoint (omd : ObjectMeta) (p q : U64) (hv : validMeta omd)
    (hp : omd.object_id.val = (layoutOf omd p).objectno)
    (hq : omd.object_id.val = (layoutOf omd q).objectno) (hne : q ≠ p) (i : Nat)
    (h1 : (layoutOf omd p).offset ≤ i)
    (h2 : i < (layoutOf omd p).offset + (1 + omd.params.entry_size.val)) :
    ¬ ((layoutOf omd q).offset ≤ i ∧
      i < (layoutOf omd q).offset + (1 + omd.params.entry_size.val)) := by
  have hoff : (layoutOf omd p).offset ≠ (layoutOf omd q).offset := by
    intro e
    exact hne (layout_inj q p _ _ _ hv.2.1 hv.2.2 (by
      have := hp.symm.trans hq
      exact this.symm) e.symm)
  rw [layoutOf_offset omd p hv] at h1 h2 hoff
  rw [layoutOf_offset omd q hv] at hoff
  rw [layoutOf_offset omd q hv]
  apply slot_disjoint _ _ _ _ _ h1 h2
  intro e
  exact hoff (congrArg (fun t => t * (1 + omd.params.entry_size.val)) e)

/-! ## Successful and failing calls -/

theorem read_meta_error_neg (P : Proto) (hctx : cls_method_context_t) (e : Int)
    (h : read_meta P hctx = .error e) : e < 0 := by
  dsimp only [read_meta] at h
  split_ifs at h with h1 h2 h3
  · cases h; decide
  · cases h; exact h1
  · cases h; decide
  · split at h
    · cases h; decide
    · cases h

theorem write_fail (P : Proto) (o : Obj) (omd : ObjectMeta) (q : U64) (d : List Byte)
    (hm : read_meta P (some o) = .ok omd)
    (h : ¬ (validMeta omd ∧ omd.object_id.val = (layoutOf omd q).objectno)) :
    (write P (some ⟨q, d⟩) (some o)).1 < 0 := by
  simp only [write, cls_cxx_stat, hm, lt_self_iff_false, if_false]
  by_cases hv : validMeta omd
  · have ht : omd.object_id.val ≠ (layoutOf omd q).objectno := fun e => h ⟨hv, e⟩
    simp only [validMeta_not_zero omd hv, if_false, ne_eq, ht, not_false_eq_true, if_true]
    decide
  · have : omd.params.entry_size = 0 ∨ omd.params.stripe_width = 0 ∨
        omd.params.entries_per_object = 0 := by
      unfold validMeta at hv
      by_contra hc
      simp only [not_or] at hc
      exact hv hc
    simp only [this, if_true]
    decide

theorem invalidate_fail (P : Proto) (o : Obj) (omd : ObjectMeta) (q : U64) (f : Bool)
    (hm : read_meta P (some o) = .ok omd)
    (h : ¬ (validMeta omd ∧ omd.object_id.val = (layoutOf omd q).objectno)) :
    (invalidate P (some ⟨q, f⟩) (some o)).1 < 0 := by
  simp only [invalidate, cls_cxx_stat, hm, lt_self_iff_false, if_false]
  by_cases hv : validMeta omd
  · have ht : omd.object_id.val ≠ (layoutOf omd q).objectno := fun e => h ⟨hv, e⟩
    simp only [validMeta_not_zero omd hv, if_false, ne_eq, ht, not_false_eq_true, if_true]
    decide
  · have : omd.params.entry_size = 0 ∨ omd.params.stripe_width = 0 ∨
        omd.params.entries_per_object = 0 := by
      unfold validMeta at hv
      by_contra hc
      simp only [not_or] at hc
      exact hv hc
    simp only [this, if_true]
    decide

/-- A successful write ran on an existing, initialised object, against a position of
that object whose slot was unused, with a payload that fits. -/
theorem write_success (P : Proto) (hctx hctx1 : cls_method_context_t) (p : U64)
    (d : List Byte) (h : write P (some ⟨p, d⟩) hctx = (0, hctx1)) :
    ∃ o omd, hctx = some o ∧ read_meta P (some o) = .ok omd ∧ validMeta omd ∧
      omd.object_id.val = (layoutOf omd p).objectno ∧
      byteAt o.data (layoutOf omd p).offset = 0 ∧
      d.length ≤ omd.params.entry_size.val ∧
      hctx1 = some (o.withData
        (pwrite o.data (layoutOf omd p).offset (Taken :: d ++ padding omd d.length))) := by
  cases hctx with
  | none =>
    simp only [write, cls_cxx_stat] at h
    have : (- ENOENT : Int) < 0 := by decide
    simp only [this, if_true, Prod.mk.injEq] at h
    exact absurd h.1 (by decide)
  | some o =>
    cases hm : read_meta P (some o) with
    | error e =>
      have he := read_meta_error_neg P _ e hm
      simp only [write, cls_cxx_stat, hm, lt_self_iff_false, if_false, Prod.mk.injEq] at h
      omega
    | ok omd =>
      by_cases hvt : validMeta omd ∧ omd.object_id.val = (layoutOf omd p).objectno
      · obtain ⟨hv, ht⟩ := hvt
        rw [write_eq P o omd p d hm hv ht] at h
        by_cases hz : byteAt o.data (layoutOf omd p).offset = 0
        · rw [if_neg (by simpa using hz)] at h
          by_cases hbig : omd.params.entry_size.val < d.length
          · rw [if_pos hbig] at h
            have h1 : (- EFBIG : Int) = 0 := congrArg Prod.fst h
            exact absurd h1 (by decide)
          · rw [if_neg hbig] at h
            exact ⟨o, omd, rfl, hm, hv, ht, hz, by omega, (congrArg Prod.snd h).symm⟩
        · rw [if_pos hz] at h
          have h1 : (- EEXIST : Int) = 0 := congrArg Prod.fst h
          exact absurd h1 (by decide)
      · have := write_fail P o omd p d hm hvt
        rw [h] at this
        exact absurd this (lt_irrefl _)

theorem withData_self (o : Obj) : o.withData o.data = o := rfl

theorem length_padding (omd : ObjectMeta) (n : Nat) :
    (padding omd n).length = omd.params.entry_size.val - n := by
  simp [padding]

theorem length_slot (omd : ObjectMeta) (d : List Byte)
    (hd : d.length ≤ omd.params.entry_size.val) :
    (Taken :: d ++ padding omd d.length).length = 1 + omd.params.entry_size.val := by
  simp only [List.length_cons, List.length_append, length_padding]
  omega

/-- The object right after a successful slot write: the slot is in range, its header
is `Taken` and its payload bytes are the payload followed by the padding. -/
theorem slot_after_write (omd : ObjectMeta) (data : List Byte) (off : Nat) (d : List Byte)
    (hd : d.length ≤ omd.params.entry_size.val) :
    off + (1 + omd.params.entry_size.val)
        ≤ (pwrite data off (Taken :: d ++ padding omd d.length)).length ∧
      byteAt (pwrite data off (Taken :: d ++ padding omd d.length)) off = Taken ∧
      slice (pwrite data off (Taken :: d ++ padding omd d.length)) off
          (1 + omd.params.entry_size.val) = Taken :: d ++ padding omd d.length ∧
      slice (pwrite data off (Taken :: d ++ padding omd d.length)) (off + 1)
          omd.params.entry_size.val = d ++ padding omd d.length := by
  have hl := length_slot omd d hd
  have hlen := length_pwrite data off (Taken :: d ++ padding omd d.length)
  have hs := slice_pwrite_self data off (Taken :: d ++ padding omd d.length)
  rw [hl] at hlen hs
  refine ⟨by omega, ?_, hs, ?_⟩
  · rw [byteAt_pwrite, if_pos ⟨le_refl _, by omega⟩, Nat.sub_self]
    simp [byteAt]
  · have : slice (pwrite data off (Taken :: d ++ padding omd d.length)) (off + 1)
        omd.params.entry_size.val
        = List.take omd.params.entry_size.val (List.drop 1
          (slice (pwrite data off (Taken :: d ++ padding omd d.length)) off
            (1 + omd.params.entry_size.val))) := by
      apply List.ext_getElem?
      intro j
      rw [getElem?_slice, List.getElem?_take, List.getElem?_drop, getElem?_slice]
      by_cases hj : j < omd.params.entry_size.val
      · rw [if_pos hj, if_pos hj, if_pos (by omega)]
        congr 1
        omega
      · rw [if_neg hj, if_neg hj]
    rw [this, hs]
    simp only [List.cons_append, List.drop_succ_cons, List.drop_zero]
    apply List.take_of_length_le
    simp only [List.length_append, length_padding]
    omega

/-! ## Write once, read after write -/

/-- C1. Write-once: when `write(p, d)` returns success, an immediately following
`write(p, d2)` with any payload returns `-EEXIST` and the object (bytes, size,
attributes) is exactly what the first write left. -/
theorem write_once (P : Proto) (hctx hctx1 : cls_method_context_t) (p : U64)
    (d d2 : List Byte) (h : write P (some ⟨p, d⟩) hctx = (0, hctx1)) :
    write P (some ⟨p, d2⟩) hctx1 = (- EEXIST, hctx1) := by
  obtain ⟨o, omd, rfl, hm, hv, ht, -, hd, rfl⟩ := write_success P hctx hctx1 p d h
  have hs := slot_after_write omd o.data (layoutOf omd p).offset d hd
  rw [write_eq P _ omd p d2 (by rw [read_meta_withData]; exact hm) hv ht]
  have : byteAt (o.withData (pwrite o.data (layoutOf omd p).offset
      (Taken :: d ++ padding omd d.length))).data (layoutOf omd p).offset ≠ 0 := by
    show byteAt (pwrite o.data (layoutOf omd p).offset
      (Taken :: d ++ padding omd d.length)) (layoutOf omd p).offset ≠ 0
    rw [hs.2.1]
    decide
  rw [if_pos this]

theorem write_once_witness :
    write exProto (some ⟨0, [120]⟩) exFresh = (0, some exWritten) ∧
      write exProto (some ⟨0, [121, 122]⟩) (some exWritten) = (- EEXIST, some exWritten) :=
  ⟨by decide, write_once exProto exFresh (some exWritten) 0 [120] [121, 122] (by decide)⟩

/-- C2, as the code behaves: on an initialised object, for a position of this object
whose slot is unused and a payload of at most `entry_size` bytes, `write` returns
success and the following `read` returns `OK` with the payload followed by
`entry_size - |d|` zero bytes; that is the payload itself exactly when it fills the
entry. -/
theorem read_after_write (P : Proto) (o : Obj) (omd : ObjectMeta) (p : U64) (d : List Byte)
    (hm : read_meta P (some o) = .ok omd) (hv : validMeta omd)
    (ht : omd.object_id.val = (layoutOf omd p).objectno)
    (hu : byteAt o.data (layoutOf omd p).offset = Unused)
    (hd : d.length ≤ omd.params.entry_size.val) :
    (write P (some ⟨p, d⟩) (some o)).1 = 0 ∧
      read P (some ⟨p⟩) (write P (some ⟨p, d⟩) (some o)).2
        = (P.OK, d ++ padding omd d.length) ∧
      (d ++ padding omd d.length = d ↔ d.length = omd.params.entry_size.val) := by
  have hs := slot_after_write omd o.data (layoutOf omd p).offset d hd
  have hw : write P (some ⟨p, d⟩) (some o) = (0, some (o.withData
      (pwrite o.data (layoutOf omd p).offset (Taken :: d ++ padding omd d.length)))) := by
    rw [write_eq P o omd p d hm hv ht, if_neg (by rw [hu]; decide), if_neg (by omega)]
  rw [hw]
  refine ⟨rfl, ?_, ?_⟩
  · rw [read_eq P _ omd p (by rw [read_meta_withData]; exact hm) hv ht]
    show (if _ ≤ (pwrite o.data (layoutOf omd p).offset
        (Taken :: d ++ padding omd d.length)).length then
      if byteAt (pwrite o.data (layoutOf omd p).offset
        (Taken :: d ++ padding omd d.length)) _ = Taken then
        (P.OK, slice (pwrite o.data (layoutOf omd p).offset
          (Taken :: d ++ padding omd d.length)) _ _) else _ else _) = _
    rw [if_pos hs.1, if_pos hs.2.1, hs.2.2.2]
  · constructor
    · intro h
      have := congrArg List.length h
      simp only [List.length_append, length_padding] at this
      omega
    · intro h
      simp [padding, h]

theorem read_after_write_witness :
    (write exProto (some ⟨0, [120]⟩) (some exEmpty)).1 = 0 ∧
      read exProto (some ⟨0⟩) (write exProto (some ⟨0, [120]⟩) (some exEmpty)).2
        = (exProto.OK, [120] ++ padding exMeta 1) ∧
      ([120] ++ padding exMeta 1 = [120] ↔ [(120 : Byte)].length = exMeta.params.entry_size.val) :=
  read_after_write exProto exEmpty exMeta 0 [120] (by decide) (by decide) (by decide)
    (by decide) (by decide)

/-- C2 fails as stated: with entries of 2 bytes, the initialised example object, the
unused slot of position 0 and the 1-byte payload `[120]`, the write succeeds and the
read returns `OK` with the 2 bytes `[120, 0]`, which is not the payload written. -/
theorem padded_read_counterexample :
    read_meta exProto (some exEmpty) = .ok exMeta ∧ validMeta exMeta ∧
      exMeta.object_id.val = (layoutOf exMeta 0).objectno ∧
      byteAt exEmpty.data (layoutOf exMeta 0).offset = Unused ∧
      [(120 : Byte)].length ≤ exMeta.params.entry_size.val ∧
      write exProto (some ⟨0, [120]⟩) (some exEmpty) = (0, some exWritten) ∧
      read exProto (some ⟨0⟩) (some exWritten) = (exProto.OK, [120, 0]) ∧
      ([120, 0] : List Byte) ≠ [120] := by
  decide

/-! ## Slot layout, layout formula, invalidate on Taken and Invalid slots -/

/-- C3. Slot byte layout: a successful `write(p, d)` is one byte-range write at the
slot's offset of exactly `slot_size = 1 + entry_size` bytes, the header byte 1
(`Taken`), then `d`, then `entry_size - |d|` zero bytes; these are the bytes of the
slot afterwards, and the following `read(p)` returns `OK` with exactly `entry_size`
bytes, `d` followed by that padding. -/
theorem slot_byte_layout (P : Proto) (hctx hctx1 : cls_method_context_t)
    (omd : ObjectMeta) (p : U64) (d : List Byte)
    (hm : read_meta P hctx = .ok omd)
    (hw : write P (some ⟨p, d⟩) hctx = (0, hctx1)) :
    ∃ o o1, hctx = some o ∧ hctx1 = some o1 ∧
      o1 = o.withData (pwrite o.data (layoutOf omd p).offset
        ([(1 : Byte)] ++ d ++ List.replicate (omd.params.entry_size.val - d.length) 0)) ∧
      (layoutOf omd p).slot_size = 1 + omd.params.entry_size.val ∧
      slice o1.data (layoutOf omd p).offset (layoutOf omd p).slot_size
        = [(1 : Byte)] ++ d ++ List.replicate (omd.params.entry_size.val - d.length) 0 ∧
      ([(1 : Byte)] ++ d ++ List.replicate (omd.params.entry_size.val - d.length) 0).length
        = (layoutOf omd p).slot_size ∧
      read P (some ⟨p⟩) hctx1
        = (P.OK, d ++ List.replicate (omd.params.entry_size.val - d.length) 0) ∧
      (d ++ List.replicate (omd.params.entry_size.val - d.length) (0 : Byte)).length
        = omd.params.entry_size.val := by
  obtain ⟨o, omd2, rfl, hm2, hv, ht, -, hd, rfl⟩ := write_success P hctx hctx1 p d hw
  have e : omd2 = omd := by
    rw [hm2] at hm
    exact Except.ok.inj hm
  subst e
  have hs := slot_after_write omd2 o.data (layoutOf omd2 p).offset d hd
  have hss := layoutOf_slot_size omd2 p hv
  refine ⟨o, _, rfl, rfl, rfl, hss, ?_, ?_, ?_, ?_⟩
  · rw [hss]
    exact hs.2.2.1
  · rw [hss]
    exact length_slot omd2 d hd
  · rw [read_eq P _ omd2 p (by rw [read_meta_withData]; exact hm2) hv ht]
    show (if _ ≤ (pwrite o.data (layoutOf omd2 p).offset
        (Taken :: d ++ padding omd2 d.length)).length then
      if byteAt (pwrite o.data (layoutOf omd2 p).offset
        (Taken :: d ++ padding omd2 d.length)) _ = Taken then
        (P.OK, slice (pwrite o.data (layoutOf omd2 p).offset
          (Taken :: d ++ padding omd2 d.length)) _ _) else _ else _) = _
    rw [if_pos hs.1, if_pos hs.2.1, hs.2.2.2]
    rfl
  · simp only [List.length_append, List.length_replicate]
    omega

theorem slot_byte_layout_witness :
    ∃ o o1, some exEmpty = some o ∧ some exWritten = some o1 ∧
      o1 = o.withData (pwrite o.data (layoutOf exMeta 0).offset
        ([(1 : Byte)] ++ [120] ++ List.replicate (exMeta.params.entry_size.val - 1) 0)) ∧
      (layoutOf exMeta 0).slot_size = 1 + exMeta.params.entry_size.val ∧
      slice o1.data (layoutOf exMeta 0).offset (layoutOf exMeta 0).slot_size
        = [(1 : Byte)] ++ [120] ++ List.replicate (exMeta.params.entry_size.val - 1) 0 ∧
      ([(1 : Byte)] ++ [120] ++ List.replicate (exMeta.params.entry_size.val - 1) 0).length
        = (layoutOf exMeta 0).slot_size ∧
      read exProto (some ⟨0⟩) (some exWritten)
        = (exProto.OK, [120] ++ List.replicate (exMeta.params.entry_size.val - 1) 0) ∧
      ([(120 : Byte)] ++ List.replicate (exMeta.params.entry_size.val - 1) (0 : Byte)).length
        = exMeta.params.entry_size.val :=
  slot_byte_layout exProto (some exEmpty) (some exWritten) exMeta 0 [120] (by decide)
    (by decide)

/-- C4. `calc_layout` equals the reference formula over the unbounded naturals: for
every 64-bit position and non-zero 32-bit parameters the outputs are
`((pos / sw) / epo) * sw + pos % sw`, `1 + entry_size` and
`((pos / sw) % epo) * (1 + entry_size)`, and nothing wraps: the product and the object
number stay at most `pos`, the slot size may reach `2 ^ 32`, and
`offset + slot_size < 2 ^ 64`. -/
theorem calc_layout_reference (pos : U64) (sw epo es : U32)
    (hsw : sw ≠ 0) (hepo : epo ≠ 0) (hes : es ≠ 0) :
    (calc_layout pos sw epo es).objectno
        = pos.val / sw.val / epo.val * sw.val + pos.val % sw.val ∧
      (calc_layout pos sw epo es).slot_size = 1 + es.val ∧
      (calc_layout pos sw epo es).offset = pos.val / sw.val % epo.val * (1 + es.val) ∧
      pos.val / sw.val / epo.val * sw.val ≤ pos.val ∧
      (calc_layout pos sw epo es).objectno ≤ pos.val ∧
      1 < (calc_layout pos sw epo es).slot_size ∧
      (calc_layout pos sw epo es).offset + (calc_layout pos sw epo es).slot_size < 2 ^ 64 := by
  have h := layout_nowrap pos sw epo es hepo
  have hes0 := U32_ne_zero_pos hes
  have hsw0 := U32_ne_zero_pos hsw
  rw [calc_layout_val pos sw epo es hepo]
  refine ⟨rfl, rfl, rfl, by omega, h.1, by simp only; omega, h.2.2⟩

theorem calc_layout_reference_witness :
    (calc_layout 13 4 2 4294967295).objectno = 13 / 4 / 2 * 4 + 13 % 4 ∧
      (calc_layout 13 4 2 4294967295).slot_size = 1 + 4294967295 ∧
      (calc_layout 13 4 2 4294967295).offset = 13 / 4 % 2 * (1 + 4294967295) ∧
      13 / 4 / 2 * 4 ≤ 13 ∧
      (calc_layout 13 4 2 4294967295).objectno ≤ 13 ∧
      1 < (calc_layout 13 4 2 4294967295).slot_size ∧
      (calc_layout 13 4 2 4294967295).offset + (calc_layout 13 4 2 4294967295).slot_size
        < 2 ^ 64 :=
  calc_layout_reference 13 4 2 4294967295 (by decide) (by decide) (by decide)

/-- C8. `invalidate(p, force = false)` on a slot whose header is `Taken` returns
`-EROFS` and leaves the object (bytes, size, attributes) as it was. -/
theorem invalidate_taken_readonly (P : Proto) (o : Obj) (omd : ObjectMeta) (p : U64)
    (hm : read_meta P (some o) = .ok omd) (hv : validMeta omd)
    (ht : omd.object_id.val = (layoutOf omd p).objectno)
    (hT : byteAt o.data (layoutOf omd p).offset = Taken) :
    invalidate P (some ⟨p, false⟩) (some o) = (- EROFS, some o) := by
  rw [invalidate_eq P o omd p false hm hv ht, hT]
  rw [if_neg (by decide), if_neg (by decide)]

theorem invalidate_taken_readonly_witness :
    invalidate exProto (some ⟨0, false⟩) (some exWritten) = (- EROFS, some exWritten) :=
  invalidate_taken_readonly exProto exWritten exMeta 0 (by decide) (by decide) (by decide)
    (by decide)

/-- C10. Invalidating an already-`Invalid` slot is a no-op success: with either value
of `force`, `invalidate` returns 0 and the object after the call equals the object
before it. -/
theorem invalidate_invalid_noop (P : Proto) (o : Obj) (omd : ObjectMeta) (p : U64)
    (force : Bool) (hm : read_meta P (some o) = .ok omd) (hv : validMeta omd)
    (ht : omd.object_id.val = (layoutOf omd p).objectno)
    (hI : byteAt o.data (layoutOf omd p).offset = Invalid) :
    invalidate P (some ⟨p, force⟩) (some o) = (0, some o) := by
  rw [invalidate_eq P o omd p force hm hv ht, hI]
  cases force with
  | false => rw [if_pos ⟨rfl, rfl⟩]
  | true =>
    rw [if_neg (by decide), if_pos (Or.inl rfl)]
    have hlt : (layoutOf omd p).offset < o.data.length := by
      by_contra hc
      have : byteAt o.data (layoutOf omd p).offset = 0 := by
        unfold byteAt
        rw [List.getElem?_eq_none (by omega)]
        rfl
      rw [this] at hI
      exact absurd hI (by decide)
    rw [if_neg (by omega), pwrite_same _ _ _ hlt hI, withData_self]

theorem invalidate_invalid_noop_witness :
    invalidate exProto (some ⟨0, false⟩) (some exInvalid) = (0, some exInvalid) ∧
      invalidate exProto (some ⟨0, true⟩) (some exInvalid) = (0, some exInvalid) :=
  ⟨invalidate_invalid_noop exProto exInvalid exMeta 0 false (by decide) (by decide)
      (by decide) (by decide),
    invalidate_invalid_noop exProto exInvalid exMeta 0 true (by decide) (by decide)
      (by decide) (by decide)⟩

/-! ## Sequences of calls -/

theorem byteAt_of_le (data : List Byte) (i : Nat) (h : data.length ≤ i) :
    byteAt data i = 0 := by
  unfold byteAt
  rw [List.getElem?_eq_none h]
  rfl

theorem write_effect_byteAt (omd : ObjectMeta) (data : List Byte) (off : Nat) (d : List Byte)
    (hd : d.length ≤ omd.params.entry_size.val) (i : Nat)
    (hi : ¬ (off ≤ i ∧ i < off + (1 + omd.params.entry_size.val))) :
    byteAt (pwrite data off (Taken :: d ++ padding omd d.length)) i = byteAt data i := by
  rw [byteAt_pwrite, length_slot omd d hd, if_neg hi]

theorem write_effect_length (omd : ObjectMeta) (data : List Byte) (off : Nat) (d : List Byte)
    (hd : d.length ≤ omd.params.entry_size.val) :
    (pwrite data off (Taken :: d ++ padding omd d.length)).length
      = max data.length (off + (1 + omd.params.entry_size.val)) := by
  rw [length_pwrite, length_slot omd d hd]

theorem inval_effect_byteAt (omd : ObjectMeta) (data : List Byte) (off i : Nat) :
    byteAt (pwrite data off
        (Invalid :: if data.length ≤ off then padding omd 0 else [])) i
      = if i = off then Invalid else byteAt data i := by
  rw [byteAt_pwrite]
  by_cases hi : i = off
  · subst hi
    rw [if_pos ⟨le_refl _, by simp⟩, if_pos rfl, Nat.sub_self]
    simp [byteAt]
  · rw [if_neg hi]
    by_cases hlen : data.length ≤ off
    · rw [if_pos hlen]
      by_cases hin : off ≤ i ∧ i < off + (Invalid :: padding omd 0).length
      · rw [if_pos hin, byteAt_of_le data i (by omega)]
        have h1 : i - off = (i - off - 1) + 1 := by omega
        rw [h1]
        unfold byteAt padding
        rw [List.getElem?_cons_succ, List.getElem?_replicate]
        split <;> rfl
      · rw [if_neg hin]
    · rw [if_neg hlen]
      have : ¬ (off ≤ i ∧ i < off + [Invalid].length) := by
        simp only [List.length_singleton]; omega
      rw [if_neg this]

theorem inval_effect_length (omd : ObjectMeta) (data : List Byte) (off : Nat) :
    (pwrite data off (Invalid :: if data.length ≤ off then padding omd 0 else [])).length
      = if data.length ≤ off then off + (1 + omd.params.entry_size.val) else data.length := by
  rw [length_pwrite]
  by_cases hlen : data.length ≤ off
  · rw [if_pos hlen, if_pos hlen]
    simp only [List.length_cons, length_padding]
    omega
  · rw [if_neg hlen, if_neg hlen]
    simp only [List.length_singleton]
    omega

/-- A call on an initialised object leaves an initialised object with the same
metadata. -/
theorem exec_some (P : Proto) (o : Obj) (omd : ObjectMeta) (c : Call)
    (hm : read_meta P (some o) = .ok omd) :
    ∃ o1, (exec P c (some o)).2 = some o1 ∧ read_meta P (some o1) = .ok omd := by
  rcases exec_effect P o omd c hm with h | ⟨-, q, d, -, -, -, -, h⟩ | ⟨-, q, f, -, -, -, h⟩
  · exact ⟨o, h, hm⟩
  · exact ⟨_, by rw [h], by rw [read_meta_withData]; exact hm⟩
  · exact ⟨_, by rw [h], by rw [read_meta_withData]; exact hm⟩

/-- Induction along a sequence of calls. -/
theorem run_invariant (P : Proto) (omd : ObjectMeta) (I : Obj → Prop)
    (hI : ∀ o c o1, read_meta P (some o) = .ok omd → I o →
      (exec P c (some o)).2 = some o1 → I o1) :
    ∀ (calls : List Call) (o : Obj), read_meta P (some o) = .ok omd → I o →
      ∃ o1, run P calls (some o) = some o1 ∧ read_meta P (some o1) = .ok omd ∧ I o1 := by
  intro calls
  induction calls with
  | nil => intro o hm h; exact ⟨o, rfl, hm, h⟩
  | cons c cs ih =>
    intro o hm h
    obtain ⟨o1, h1, hm1⟩ := exec_some P o omd c hm
    have := ih o1 hm1 (hI o c o1 hm h h1)
    simp only [run, h1]
    exact this

/-- The header of slot `k` after one call, for a slot whose header was a state. -/
theorem header_step (P : Proto) (o o1 : Obj) (omd : ObjectMeta) (c : Call) (k : Nat)
    (hm : read_meta P (some o) = .ok omd)
    (hh : byteAt o.data (k * (1 + omd.params.entry_size.val)) = Unused ∨
      byteAt o.data (k * (1 + omd.params.entry_size.val)) = Taken ∨
      byteAt o.data (k * (1 + omd.params.entry_size.val)) = Invalid)
    (h1 : (exec P c (some o)).2 = some o1) :
    byteAt o1.data (k * (1 + omd.params.entry_size.val))
        = byteAt o.data (k * (1 + omd.params.entry_size.val)) ∨
      (byteAt o.data (k * (1 + omd.params.entry_size.val)) = Unused ∧
        byteAt o1.data (k * (1 + omd.params.entry_size.val)) = Taken ∧
        (∃ q d, c = Call.write (some ⟨q, d⟩)) ∧ (exec P c (some o)).1 = 0) ∨
      (byteAt o.data (k * (1 + omd.params.entry_size.val)) = Unused ∧
        byteAt o1.data (k * (1 + omd.params.entry_size.val)) = Invalid ∧
        (∃ q f, c = Call.invalidate (some ⟨q, f⟩)) ∧ (exec P c (some o)).1 = 0) ∨
      (byteAt o.data (k * (1 + omd.params.entry_size.val)) = Taken ∧
        byteAt o1.data (k * (1 + omd.params.entry_size.val)) = Invalid ∧
        (∃ q, c = Call.invalidate (some ⟨q, true⟩)) ∧ (exec P c (some o)).1 = 0) := by
  rcases exec_effect P o omd c hm with h | ⟨hv, q, d, hc, -, hz, hd, h⟩ |
      ⟨hv, q, f, hc, -, hf, h⟩
  · rw [h] at h1
    cases h1
    exact Or.inl rfl
  · rw [h] at h1
    cases h1
    show byteAt (pwrite o.data _ _) _ = _ ∨ _
    by_cases hk : k * (1 + omd.params.entry_size.val) = (layoutOf omd q).offset
    · right; left
      rw [hk]
      refine ⟨hz, (slot_after_write omd o.data _ d hd).2.1, ⟨q, d, hc⟩, by rw [h]⟩
    · left
      apply write_effect_byteAt omd o.data _ d hd
      rw [layoutOf_offset omd q hv] at hk ⊢
      apply slot_disjoint k _ _ _ _ (le_refl _) (by omega)
      intro e
      exact hk (by rw [e])
  · rw [h] at h1
    cases h1
    have hb := inval_effect_byteAt omd o.data (layoutOf omd q).offset
      (k * (1 + omd.params.entry_size.val))
    by_cases hk : k * (1 + omd.params.entry_size.val) = (layoutOf omd q).offset
    · rw [if_pos hk] at hb
      rw [← hk] at hf
      rcases hh with h0 | hT | hI
      · right; right; left
        exact ⟨h0, hb, ⟨q, f, hc⟩, by rw [h]⟩
      · rcases hf with hf | hf
        · right; right; right
          subst hf
          exact ⟨hT, hb, ⟨q, hc⟩, by rw [h]⟩
        · rw [hf] at hT
          exact absurd hT (by decide)
      · left
        exact hb.trans hI.symm
    · rw [if_neg hk] at hb
      exact Or.inl hb

/-! ## The slot state machine -/

/-- C6. Slot state machine: on an initialised object, for every slot `k` whose header
byte is one of the three states (a slot past the object end counts as `Unused`) and
every handler call `c`, the header after the call is unchanged, or went
`Unused -> Taken` and `c` is a write that returned 0, or went `Unused -> Invalid` and
`c` is an invalidate that returned 0, or went `Taken -> Invalid` and `c` is an
invalidate with `force = true` that returned 0.  So no call leaves `Invalid` or
returns to `Unused`, and an `Invalid` header stays `Invalid` under every sequence of
calls. -/
theorem slot_state_machine (P : Proto) (o : Obj) (omd : ObjectMeta) (k : Nat) (c : Call)
    (calls : List Call) (hm : read_meta P (some o) = .ok omd)
    (hh : byteAt o.data (k * (1 + omd.params.entry_size.val)) = Unused ∨
      byteAt o.data (k * (1 + omd.params.entry_size.val)) = Taken ∨
      byteAt o.data (k * (1 + omd.params.entry_size.val)) = Invalid) :
    (∃ o1, (exec P c (some o)).2 = some o1 ∧
      (byteAt o1.data (k * (1 + omd.params.entry_size.val))
          = byteAt o.data (k * (1 + omd.params.entry_size.val)) ∨
        (byteAt o.data (k * (1 + omd.params.entry_size.val)) = Unused ∧
          byteAt o1.data (k * (1 + omd.params.entry_size.val)) = Taken ∧
          (∃ q d, c = Call.write (some ⟨q, d⟩)) ∧ (exec P c (some o)).1 = 0) ∨
        (byteAt o.data (k * (1 + omd.params.entry_size.val)) = Unused ∧
          byteAt o1.data (k * (1 + omd.params.entry_size.val)) = Invalid ∧
          (∃ q f, c = Call.invalidate (some ⟨q, f⟩)) ∧ (exec P c (some o)).1 = 0) ∨
        (byteAt o.data (k * (1 + omd.params.entry_size.val)) = Taken ∧
          byteAt o1.data (k * (1 + omd.params.entry_size.val)) = Invalid ∧
          (∃ q, c = Call.invalidate (some ⟨q, true⟩)) ∧ (exec P c (some o)).1 = 0)) ∧
      (byteAt o.data (k * (1 + omd.params.entry_size.val)) = Invalid →
        byteAt o1.data (k * (1 + omd.params.entry_size.val)) = Invalid) ∧
      (byteAt o.data (k * (1 + omd.params.entry_size.val)) ≠ Unused →
        byteAt o1.data (k * (1 + omd.params.entry_size.val)) ≠ Unused)) ∧
    (byteAt o.data (k * (1 + omd.params.entry_size.val)) = Invalid →
      ∃ o2, run P calls (some o) = some o2 ∧
        byteAt o2.data (k * (1 + omd.params.entry_size.val)) = Invalid) := by
  constructor
  · obtain ⟨o1, h1, -⟩ := exec_some P o omd c hm
    have hs := header_step P o o1 omd c k hm hh h1
    refine ⟨o1, h1, hs, ?_, ?_⟩
    · intro hI
      rcases hs with e | ⟨h0, -⟩ | ⟨h0, -⟩ | ⟨hT, -⟩
      · rw [e]; exact hI
      · rw [hI] at h0; exact absurd h0 (by decide)
      · rw [hI] at h0; exact absurd h0 (by decide)
      · rw [hI] at hT; exact absurd hT (by decide)
    · intro hU
      rcases hs with e | ⟨h0, -⟩ | ⟨h0, -⟩ | ⟨-, hI, -⟩
      · rw [e]; exact hU
      · exact absurd h0 hU
      · exact absurd h0 hU
      · rw [hI]; decide
  · intro hI
    obtain ⟨o2, h2, -, hI2⟩ := run_invariant P omd
      (fun x => byteAt x.data (k * (1 + omd.params.entry_size.val)) = Invalid)
      (by
        intro x c1 x1 hmx hx hx1
        rcases header_step P x x1 omd c1 k hmx (Or.inr (Or.inr hx)) hx1 with
          e | ⟨h0, -⟩ | ⟨h0, -⟩ | ⟨hT, -⟩
        · show byteAt x1.data _ = Invalid
          rw [e]; exact hx
        · rw [hx] at h0; exact absurd h0 (by decide)
        · rw [hx] at h0; exact absurd h0 (by decide)
        · rw [hx] at hT; exact absurd hT (by decide))
      calls o hm hI
    exact ⟨o2, h2, hI2⟩

theorem slot_state_machine_witness :
    (∃ o1, (exec exProto (Call.invalidate (some ⟨0, true⟩)) (some exWritten)).2 = some o1 ∧
      byteAt exWritten.data (0 * (1 + exMeta.params.entry_size.val)) = Taken ∧
      byteAt o1.data (0 * (1 + exMeta.params.entry_size.val)) = Invalid) ∧
    (∃ o2, run exProto [Call.write (some ⟨0, [7]⟩), Call.invalidate (some ⟨0, true⟩),
        Call.write (some ⟨4, [8, 9]⟩)] (some exInvalid) = some o2 ∧
      byteAt o2.data (0 * (1 + exMeta.params.entry_size.val)) = Invalid) := by
  constructor
  · obtain ⟨o1, h1, -, -, hU⟩ := (slot_state_machine exProto exWritten exMeta 0
      (Call.invalidate (some ⟨0, true⟩)) [] (by decide) (by decide)).1
    have e : o1 = exInvalid := by
      have : (exec exProto (Call.invalidate (some ⟨0, true⟩)) (some exWritten)).2
          = some exInvalid := by decide
      rw [this] at h1
      exact (Option.some.inj h1).symm
    subst e
    exact ⟨exInvalid, h1, by decide, by decide⟩
  · exact (slot_state_machine exProto exInvalid exMeta 0 (Call.read none)
      [Call.write (some ⟨0, [7]⟩), Call.invalidate (some ⟨0, true⟩),
        Call.write (some ⟨4, [8, 9]⟩)] (by decide) (by decide)).2 (by decide)

/-! ## Written payloads are stable -/

/-- What stays true of a written slot: it is inside the object, its header is `Taken`
or `Invalid`, and its payload bytes are `x`. -/
theorem written_slot_step (P : Proto) (omd : ObjectMeta) (k : Nat) (x : List Byte)
    (o o1 : Obj) (c : Call) (hm : read_meta P (some o) = .ok omd)
    (hI : k * (1 + omd.params.entry_size.val) + (1 + omd.params.entry_size.val)
        ≤ o.data.length ∧
      (byteAt o.data (k * (1 + omd.params.entry_size.val)) = Taken ∨
        byteAt o.data (k * (1 + omd.params.entry_size.val)) = Invalid) ∧
      slice o.data (k * (1 + omd.params.entry_size.val) + 1) omd.params.entry_size.val = x)
    (h1 : (exec P c (some o)).2 = some o1) :
    k * (1 + omd.params.entry_size.val) + (1 + omd.params.entry_size.val)
        ≤ o1.data.length ∧
      (byteAt o1.data (k * (1 + omd.params.entry_size.val)) = Taken ∨
        byteAt o1.data (k * (1 + omd.params.entry_size.val)) = Invalid) ∧
      slice o1.data (k * (1 + omd.params.entry_size.val) + 1) omd.params.entry_size.val
        = x := by
  obtain ⟨hlen, hhdr, hpay⟩ := hI
  rcases exec_effect P o omd c hm with h | ⟨hv, q, d, -, -, hz, hd, h⟩ |
      ⟨hv, q, f, -, -, -, h⟩
  · rw [h] at h1
    cases h1
    exact ⟨hlen, hhdr, hpay⟩
  · rw [h] at h1
    cases h1
    obtain ⟨s, hs⟩ : ∃ s, (layoutOf omd q).offset = s * (1 + omd.params.entry_size.val) :=
      ⟨_, layoutOf_offset omd q hv⟩
    have hne : k ≠ s := by
      intro e
      rw [hs, ← e] at hz
      rcases hhdr with h2 | h2
      · rw [h2] at hz; exact absurd hz (by decide)
      · rw [h2] at hz; exact absurd hz (by decide)
    have hsame : ∀ i, k * (1 + omd.params.entry_size.val) ≤ i →
        i < k * (1 + omd.params.entry_size.val) + (1 + omd.params.entry_size.val) →
        byteAt (pwrite o.data (layoutOf omd q).offset (Taken :: d ++ padding omd d.length)) i
          = byteAt o.data i := by
      intro i hi1 hi2
      apply write_effect_byteAt omd o.data _ d hd
      rw [hs]
      exact slot_disjoint k _ _ i hne hi1 hi2
    have hl := write_effect_length omd o.data (layoutOf omd q).offset d hd
    refine ⟨?_, ?_, ?_⟩
    · show _ ≤ (pwrite o.data _ _).length
      rw [hl]; omega
    · show byteAt (pwrite o.data _ _) _ = _ ∨ byteAt (pwrite o.data _ _) _ = _
      rw [hsame _ (le_refl _) (by omega)]
      exact hhdr
    · rw [← hpay]
      apply slice_ext
      · show _ ≤ (pwrite o.data _ _).length
        rw [hl]; omega
      · omega
      · intro i hi1 hi2
        exact hsame i (by omega) (by omega)
  · rw [h] at h1
    cases h1
    have hb := inval_effect_byteAt omd o.data (layoutOf omd q).offset
    have hl := inval_effect_length omd o.data (layoutOf omd q).offset
    refine ⟨?_, ?_, ?_⟩
    · show _ ≤ (pwrite o.data _ _).length
      rw [hl]
      split
      · omega
      · exact hlen
    · show byteAt (pwrite o.data _ _) _ = _ ∨ byteAt (pwrite o.data _ _) _ = _
      rw [hb]
      split
      · exact Or.inr rfl
      · exact hhdr
    · rw [← hpay]
      apply slice_ext
      · show _ ≤ (pwrite o.data _ _).length
        rw [hl]
        split
        · omega
        · omega
      · omega
      · intro i hi1 hi2
        show byteAt (pwrite o.data _ _) _ = _
        obtain ⟨s, hs⟩ : ∃ s, (layoutOf omd q).offset = s * (1 + omd.params.entry_size.val) :=
          ⟨_, layoutOf_offset omd q hv⟩
        rw [hb, if_neg]
        rw [hs]
        intro e
        by_cases hk : k = s
        · rw [← hk] at e
          omega
        · have hdis := slot_disjoint k s (1 + omd.params.entry_size.val) i hk (by omega)
            (by omega)
          apply hdis
          constructor <;> omega


/-- C7. A written payload is never overwritten: once `write(p, d)` has returned
success, after any sequence of `init` / `read` / `write` / `invalidate` calls (any
positions, any force flag) the `entry_size` payload bytes of the slot of `p` are
still the bytes that write stored, `d` and its zero padding, and `read(p)` returns
either `OK` with those bytes or `INVALID`. -/
theorem written_payload_stable (P : Proto) (hctx hctx1 : cls_method_context_t)
    (omd : ObjectMeta) (p : U64) (d : List Byte) (calls : List Call)
    (hm : read_meta P hctx = .ok omd)
    (hw : write P (some ⟨p, d⟩) hctx = (0, hctx1)) :
    ∃ o1 o2, hctx1 = some o1 ∧ run P calls hctx1 = some o2 ∧
      slice o1.data ((layoutOf omd p).offset + 1) omd.params.entry_size.val
        = d ++ padding omd d.length ∧
      slice o2.data ((layoutOf omd p).offset + 1) omd.params.entry_size.val
        = slice o1.data ((layoutOf omd p).offset + 1) omd.params.entry_size.val ∧
      (read P (some ⟨p⟩) (run P calls hctx1) = (P.OK, d ++ padding omd d.length) ∨
        read P (some ⟨p⟩) (run P calls hctx1) = (P.INVALID, [])) := by
  obtain ⟨o, omd2, rfl, hm2, hv, ht, -, hd, rfl⟩ := write_success P hctx hctx1 p d hw
  have e : omd2 = omd := by
    rw [hm2] at hm
    exact Except.ok.inj hm
  subst e
  have hs := slot_after_write omd2 o.data (layoutOf omd2 p).offset d hd
  have hoff := layoutOf_offset omd2 p hv
  rw [hoff] at hs ⊢
  have hm1 : read_meta P (some (o.withData (pwrite o.data
      (p.val / omd2.params.stripe_width.val % omd2.params.entries_per_object.val
        * (1 + omd2.params.entry_size.val)) (Taken :: d ++ padding omd2 d.length))))
      = .ok omd2 := by
    rw [read_meta_withData]; exact hm2
  obtain ⟨o2, h2, hm3, hlen, hhdr, hpay⟩ := run_invariant P omd2
    (fun x => p.val / omd2.params.stripe_width.val % omd2.params.entries_per_object.val
          * (1 + omd2.params.entry_size.val) + (1 + omd2.params.entry_size.val)
        ≤ x.data.length ∧
      (byteAt x.data (p.val / omd2.params.stripe_width.val
          % omd2.params.entries_per_object.val * (1 + omd2.params.entry_size.val)) = Taken ∨
        byteAt x.data (p.val / omd2.params.stripe_width.val
          % omd2.params.entries_per_object.val * (1 + omd2.params.entry_size.val)) = Invalid) ∧
      slice x.data (p.val / omd2.params.stripe_width.val
          % omd2.params.entries_per_object.val * (1 + omd2.params.entry_size.val) + 1)
          omd2.params.entry_size.val
        = d ++ padding omd2 d.length)
    (fun x c x1 hmx hx hx1 => written_slot_step P omd2 _ _ x x1 c hmx hx hx1)
    calls _ hm1 ⟨hs.1, Or.inl hs.2.1, hs.2.2.2⟩
  refine ⟨_, o2, rfl, h2, hs.2.2.2, ?_, ?_⟩
  · rw [hpay]
    exact hs.2.2.2.symm
  · rw [h2]
    have hr := read_eq P o2 omd2 p hm3 hv ht
    rw [hoff, if_pos hlen, hpay] at hr
    rcases hhdr with hT | hI
    · left
      rw [hr, if_pos hT]
    · right
      rw [hr, hI, if_neg (by decide), if_neg (by decide), if_pos rfl]


theorem written_payload_stable_witness :
    ∃ o1 o2, some exWritten = some o1 ∧
      run exProto [Call.write (some ⟨0, [9]⟩), Call.write (some ⟨4, [5, 6]⟩),
        Call.invalidate (some ⟨0, false⟩), Call.invalidate (some ⟨4, true⟩),
        Call.init (some exInit)] (some exWritten) = some o2 ∧
      slice o1.data ((layoutOf exMeta 0).offset + 1) exMeta.params.entry_size.val
        = [120] ++ padding exMeta 1 ∧
      slice o2.data ((layoutOf exMeta 0).offset + 1) exMeta.params.entry_size.val
        = slice o1.data ((layoutOf exMeta 0).offset + 1) exMeta.params.entry_size.val ∧
      (read exProto (some ⟨0⟩)
          (run exProto [Call.write (some ⟨0, [9]⟩), Call.write (some ⟨4, [5, 6]⟩),
            Call.invalidate (some ⟨0, false⟩), Call.invalidate (some ⟨4, true⟩),
            Call.init (some exInit)] (some exWritten))
          = (exProto.OK, [120] ++ padding exMeta 1) ∨
        read exProto (some ⟨0⟩)
          (run exProto [Call.write (some ⟨0, [9]⟩), Call.write (some ⟨4, [5, 6]⟩),
            Call.invalidate (some ⟨0, false⟩), Call.invalidate (some ⟨4, true⟩),
            Call.init (some exInit)] (some exWritten))
          = (exProto.INVALID, [])) :=
  written_payload_stable exProto (some exEmpty) (some exWritten) exMeta 0 [120]
    [Call.write (some ⟨0, [9]⟩), Call.write (some ⟨4, [5, 6]⟩),
      Call.invalidate (some ⟨0, false⟩), Call.invalidate (some ⟨4, true⟩),
      Call.init (some exInit)] (by decide) (by decide)

/-! ## Untouched slots read as unwritten -/

/-- The object a successful first `init` creates: no bytes, the encoded request as
its only attribute, and a geometry without zero fields. -/
theorem init_fresh (P : Proto) (r : InitOp) (st0 : cls_method_context_t)
    (hi : init P (some r) none = (0, st0)) :
    st0 = some ⟨[], [("meta", P.encodeMeta r.toMeta)], []⟩ ∧ validMeta r.toMeta := by
  have h1 : ¬ ((- ENOENT : Int) < 0 ∧ (- ENOENT : Int) ≠ - ENOENT) := by decide
  have h2 : ¬ ((- ENOENT : Int) = 0) := by decide
  simp only [init, cls_cxx_stat, h1, h2, if_false, cls_cxx_setxattr, Option.getD_none,
    lt_self_iff_false, List.filter_nil, ne_eq, not_true_eq_false, or_self] at hi
  by_cases hz : r.params.entry_size = 0 ∨ r.params.stripe_width = 0 ∨
      r.params.entries_per_object = 0
  · rw [if_pos hz] at hi
    have h3 : (- EINVAL : Int) = 0 := congrArg Prod.fst hi
    exact absurd h3 (by decide)
  · rw [if_neg hz] at hi
    refine ⟨(congrArg Prod.snd hi).symm, ?_⟩
    simp only [not_or] at hz
    exact hz

theorem read_meta_fresh (P : Proto) (m : ObjectMeta)
    (hdec : P.decodeMeta (P.encodeMeta m) = some m) (hne : P.encodeMeta m ≠ []) :
    read_meta P (some ⟨[], [("meta", P.encodeMeta m)], []⟩) = .ok m := by
  have hl : (P.encodeMeta m).length ≠ 0 := by
    intro h
    exact hne (List.length_eq_zero.mp h)
  have hn : ¬ (((P.encodeMeta m).length : Int) < 0) := by omega
  simp only [read_meta, cls_cxx_getxattr, List.lookup, beq_self_eq_true, hn, if_false, hl, hdec]

/-- Along a sequence in which no successful write or invalidate addresses `p`, the
header of the slot of `p` stays zero. -/
theorem untouched_header (P : Proto) (omd : ObjectMeta) (p : U64) (hv : validMeta omd)
    (ht : omd.object_id.val = (layoutOf omd p).objectno) :
    ∀ (calls : List Call) (o : Obj), read_meta P (some o) = .ok omd →
      byteAt o.data (layoutOf omd p).offset = 0 →
      untouched P p calls (some o) = true →
      ∃ o1, run P calls (some o) = some o1 ∧ read_meta P (some o1) = .ok omd ∧
        byteAt o1.data (layoutOf omd p).offset = 0 := by
  intro calls
  induction calls with
  | nil => intro o hm h _; exact ⟨o, rfl, hm, h⟩
  | cons c cs ih =>
    intro o hm hz hu
    simp only [untouched, Bool.and_eq_true, Bool.not_eq_true', Bool.and_eq_false_iff,
      decide_eq_false_iff_not] at hu
    obtain ⟨hc, hrest⟩ := hu
    have hoffne : ∀ q : U64, q ≠ p → omd.object_id.val = (layoutOf omd q).objectno →
        (layoutOf omd p).offset ≠ (layoutOf omd q).offset := by
      intro q hq htq e
      exact hq (layout_inj q p _ _ _ hv.2.1 hv.2.2 (htq.symm.trans ht) e.symm)
    rcases exec_effect P o omd c hm with h | ⟨-, q, d, hcq, htq, -, hd, h⟩ |
        ⟨-, q, f, hcq, htq, -, h⟩
    · rw [h] at hrest
      simp only [run, h]
      exact ih o hm hz hrest
    · have hq : q ≠ p := by
        intro e
        rcases hc with hc | hc
        · rw [hcq, addresses] at hc
          simp [e] at hc
        · rw [h] at hc
          exact hc rfl
      rw [h] at hrest
      simp only [run, h]
      apply ih _ (by rw [read_meta_withData]; exact hm) _ hrest
      show byteAt (pwrite o.data _ _) _ = 0
      rw [write_effect_byteAt omd o.data _ d hd]
      · exact hz
      · intro hin
        exact slots_disjoint omd p q hv ht htq hq _ (le_refl _) (by omega) hin
    · have hq : q ≠ p := by
        intro e
        rcases hc with hc | hc
        · rw [hcq, addresses] at hc
          simp [e] at hc
        · rw [h] at hc
          exact hc rfl
      rw [h] at hrest
      simp only [run, h]
      apply ih _ (by rw [read_meta_withData]; exact hm) _ hrest
      show byteAt (pwrite o.data _ _) _ = 0
      rw [inval_effect_byteAt, if_neg (hoffne q hq htq)]
      exact hz

/-- C5. Read of an untouched slot is `UNWRITTEN`: start from the object a successful
`init` of a missing object created (with a codec that reads the persisted record
back), run any sequence of `init` / `read` / `write` / `invalidate` calls, and let `p`
be a position of this object that no successful write or invalidate of the sequence
addressed; then `read(p)` returns `UNWRITTEN` and no payload, whether the slot lies
inside the current object size or past it. -/
theorem read_untouched_unwritten (P : Proto) (r : InitOp) (st0 : cls_method_context_t)
    (calls : List Call) (p : U64)
    (hi : init P (some r) none = (0, st0))
    (hdec : P.decodeMeta (P.encodeMeta r.toMeta) = some r.toMeta)
    (hne : P.encodeMeta r.toMeta ≠ [])
    (ht : r.object_id.val = (layoutOf r.toMeta p).objectno)
    (hu : untouched P p calls st0 = true) :
    read P (some ⟨p⟩) (run P calls st0) = (P.UNWRITTEN, []) := by
  obtain ⟨rfl, hv⟩ := init_fresh P r st0 hi
  have hm := read_meta_fresh P r.toMeta hdec hne
  obtain ⟨o1, h1, hm1, hz⟩ := untouched_header P r.toMeta p hv ht calls _ hm
    (byteAt_of_le _ _ (Nat.zero_le _)) hu
  have a : ¬ ((0 : Byte) = Taken) := by decide
  have b : (0 : Byte) = Unused := rfl
  rw [h1, read_eq P o1 r.toMeta p hm1 hv ht, hz, if_neg a, if_pos b]
  exact ite_self _


theorem read_untouched_unwritten_witness :
    read exProto (some ⟨0⟩)
        (run exProto [Call.write (some ⟨4, [120]⟩), Call.write (some ⟨0, [1, 2, 3]⟩),
          Call.invalidate (some ⟨4, false⟩), Call.read (some ⟨0⟩)] exFresh)
        = (exProto.UNWRITTEN, []) ∧
      read exProto (some ⟨4⟩) (run exProto [Call.write (some ⟨0, [120]⟩)] exFresh)
        = (exProto.UNWRITTEN, []) :=
  ⟨read_untouched_unwritten exProto exInit exFresh
      [Call.write (some ⟨4, [120]⟩), Call.write (some ⟨0, [1, 2, 3]⟩),
        Call.invalidate (some ⟨4, false⟩), Call.read (some ⟨0⟩)] 0
      (by decide) (by decide) (by decide) (by decide) (by decide),
    read_untouched_unwritten exProto exInit exFresh [Call.write (some ⟨0, [120]⟩)] 4
      (by decide) (by decide) (by decide) (by decide) (by decide)⟩

/-! ## Invalidate then read -/

/-- Every call keeps the object size a multiple of the slot size. -/
theorem size_step (P : Proto) (omd : ObjectMeta) (o o1 : Obj) (c : Call)
    (hm : read_meta P (some o) = .ok omd)
    (hI : (1 + omd.params.entry_size.val) ∣ o.data.length)
    (h1 : (exec P c (some o)).2 = some o1) :
    (1 + omd.params.entry_size.val) ∣ o1.data.length := by
  rcases exec_effect P o omd c hm with h | ⟨hv, q, d, -, -, -, hd, h⟩ |
      ⟨hv, q, f, -, -, -, h⟩
  · rw [h] at h1
    cases h1
    exact hI
  · rw [h] at h1
    cases h1
    show _ ∣ (pwrite o.data _ _).length
    rw [write_effect_length omd o.data _ d hd, layoutOf_offset omd q hv]
    rcases Nat.le_total o.data.length
      (q.val / omd.params.stripe_width.val % omd.params.entries_per_object.val
        * (1 + omd.params.entry_size.val) + (1 + omd.params.entry_size.val)) with hle | hle
    · rw [Nat.max_eq_right hle]
      exact Dvd.dvd.add (Dvd.intro_left _ rfl) (dvd_refl _)
    · rw [Nat.max_eq_left hle]
      exact hI
  · rw [h] at h1
    cases h1
    show _ ∣ (pwrite o.data _ _).length
    rw [inval_effect_length, layoutOf_offset omd q hv]
    split
    · exact Dvd.dvd.add (Dvd.intro_left _ rfl) (dvd_refl _)
    · exact hI

/-- In an object whose size is a multiple of the slot size, a slot that starts
inside the object lies inside it entirely. -/
theorem slot_in_range (s k len : Nat) (hd : s ∣ len) (h : k * s < len) :
    k * s + s ≤ len := by
  obtain ⟨m, rfl⟩ := hd
  rw [Nat.mul_comm s m] at h ⊢
  have hk : k < m := Nat.lt_of_mul_lt_mul_right h
  have : (k + 1) * s ≤ m * s := Nat.mul_le_mul_right s hk
  rw [Nat.add_mul, Nat.one_mul] at this
  exact this

/-- C9. A successful invalidate makes the entry read as `INVALID`: in every state
reached from a freshly initialised object by handler calls, for every position and
either value of `force`, if `invalidate(p, force)` returns success then the
immediately following `read(p)` returns `INVALID` and no payload. -/
theorem invalidate_then_read_invalid (P : Proto) (r : InitOp)
    (st0 st1 : cls_method_context_t) (calls : List Call) (p : U64) (force : Bool)
    (hi : init P (some r) none = (0, st0))
    (hdec : P.decodeMeta (P.encodeMeta r.toMeta) = some r.toMeta)
    (hne : P.encodeMeta r.toMeta ≠ [])
    (hinv : invalidate P (some ⟨p, force⟩) (run P calls st0) = (0, st1)) :
    read P (some ⟨p⟩) st1 = (P.INVALID, []) := by
  obtain ⟨rfl, hv⟩ := init_fresh P r st0 hi
  have hm := read_meta_fresh P r.toMeta hdec hne
  obtain ⟨o, ho, hmo, hdvd⟩ := run_invariant P r.toMeta
    (fun x => (1 + r.toMeta.params.entry_size.val) ∣ x.data.length)
    (fun x c x1 hmx hx hx1 => size_step P r.toMeta x x1 c hmx hx hx1)
    calls _ hm (dvd_zero _)
  rw [ho] at hinv
  have ht : r.toMeta.object_id.val = (layoutOf r.toMeta p).objectno := by
    by_contra hc
    have := invalidate_fail P o r.toMeta p force hmo (fun h => hc h.2)
    rw [hinv] at this
    exact absurd this (lt_irrefl _)
  have hoff := layoutOf_offset r.toMeta p hv
  have hin : (layoutOf r.toMeta p).offset < o.data.length →
      (layoutOf r.toMeta p).offset + (1 + r.toMeta.params.entry_size.val) ≤ o.data.length := by
    intro h
    rw [hoff] at h ⊢
    exact slot_in_range _ _ _ hdvd h
  have hTI : ¬ (Invalid = Taken) := by decide
  have hUI : ¬ (Invalid = Unused) := by decide
  rw [invalidate_eq P o r.toMeta p force hmo hv ht] at hinv
  by_cases h1 : force = false ∧ byteAt o.data (layoutOf r.toMeta p).offset = Invalid
  · rw [if_pos h1] at hinv
    have e : st1 = some o := (congrArg Prod.snd hinv).symm
    subst e
    have hlt : (layoutOf r.toMeta p).offset < o.data.length := by
      by_contra hc
      have := byteAt_of_le o.data (layoutOf r.toMeta p).offset (by omega)
      rw [h1.2] at this
      exact absurd this (by decide)
    rw [read_eq P o r.toMeta p hmo hv ht, if_pos (hin hlt), h1.2, if_neg hTI, if_neg hUI,
      if_pos rfl]
  · rw [if_neg h1] at hinv
    by_cases h2 : force = true ∨ byteAt o.data (layoutOf r.toMeta p).offset = 0
    · rw [if_pos h2] at hinv
      have e : st1 = _ := (congrArg Prod.snd hinv).symm
      subst e
      have hb := inval_effect_byteAt r.toMeta o.data (layoutOf r.toMeta p).offset
        (layoutOf r.toMeta p).offset
      rw [if_pos rfl] at hb
      have hl := inval_effect_length r.toMeta o.data (layoutOf r.toMeta p).offset
      have hlen : (layoutOf r.toMeta p).offset + (1 + r.toMeta.params.entry_size.val)
          ≤ (pwrite o.data (layoutOf r.toMeta p).offset (Invalid ::
            if o.data.length ≤ (layoutOf r.toMeta p).offset then padding r.toMeta 0
            else [])).length := by
        rw [hl]
        split
        · exact le_refl _
        · exact hin (by omega)
      rw [read_eq P _ r.toMeta p (by rw [read_meta_withData]; exact hmo) hv ht]
      show (if _ ≤ (pwrite o.data _ _).length then
        (if byteAt (pwrite o.data _ _) _ = Taken then _
          else if byteAt (pwrite o.data _ _) _ = Unused then _
          else if byteAt (pwrite o.data _ _) _ = Invalid then _ else _) else _) = _
      rw [if_pos hlen, hb, if_neg hTI, if_neg hUI, if_pos rfl]
    · rw [if_neg h2] at hinv
      have h3 : (- EROFS : Int) = 0 := congrArg Prod.fst hinv
      exact absurd h3 (by decide)

theorem invalidate_then_read_invalid_witness :
    read exProto (some ⟨0⟩) (some exInvalid) = (exProto.INVALID, []) ∧
      read exProto (some ⟨4⟩) (some ⟨[1, 120, 0, 2, 0, 0],
        [("meta", exEncodeMeta exMeta)], []⟩) = (exProto.INVALID, []) :=
  ⟨invalidate_then_read_invalid exProto exInit exFresh (some exInvalid)
      [Call.write (some ⟨0, [120]⟩)] 0 true (by decide) (by decide) (by decide) (by decide),
    invalidate_then_read_invalid exProto exInit exFresh
      (some ⟨[1, 120, 0, 2, 0, 0], [("meta", exEncodeMeta exMeta)], []⟩)
      [Call.write (some ⟨0, [120]⟩)] 4 false (by decide) (by decide) (by decide)
      (by decide)⟩

/-! ## Reachable states -/

/-- In every state reached from a freshly initialised object, the header byte of
every slot is one of the three states. -/
theorem reachable_headers_are_states (P : Proto) (r : InitOp) (st0 : cls_method_context_t)
    (calls : List Call) (k : Nat)
    (hi : init P (some r) none = (0, st0))
    (hdec : P.decodeMeta (P.encodeMeta r.toMeta) = some r.toMeta)
    (hne : P.encodeMeta r.toMeta ≠ []) :
    ∃ o, run P calls st0 = some o ∧ read_meta P (some o) = .ok r.toMeta ∧
      (byteAt o.data (k * (1 + r.toMeta.params.entry_size.val)) = Unused ∨
        byteAt o.data (k * (1 + r.toMeta.params.entry_size.val)) = Taken ∨
        byteAt o.data (k * (1 + r.toMeta.params.entry_size.val)) = Invalid) := by
  obtain ⟨rfl, -⟩ := init_fresh P r st0 hi
  have hm := read_meta_fresh P r.toMeta hdec hne
  exact run_invariant P r.toMeta
    (fun x => byteAt x.data (k * (1 + r.toMeta.params.entry_size.val)) = Unused ∨
      byteAt x.data (k * (1 + r.toMeta.params.entry_size.val)) = Taken ∨
      byteAt x.data (k * (1 + r.toMeta.params.entry_size.val)) = Invalid)
    (by
      intro x c x1 hmx hx hx1
      rcases header_step P x x1 r.toMeta c k hmx hx hx1 with
        e | ⟨-, h, -⟩ | ⟨-, h, -⟩ | ⟨-, h, -⟩
      · show byteAt x1.data _ = _ ∨ _
        rw [e]; exact hx
      · exact Or.inr (Or.inl h)
      · exact Or.inr (Or.inr h)
      · exact Or.inr (Or.inr h))
    calls _ hm (Or.inl (byteAt_of_le _ _ (Nat.zero_le _)))

/-! ## Oversized payloads and the wrong-target guard -/

/-- C11. Oversized payloads are rejected without writing: on an initialised object,
for a position of this object and a payload longer than `entry_size`, `write` leaves
the object as it was and returns `-EFBIG` when the slot's header is `Unused` (which
includes every slot at or past the object end) and `-EEXIST` when the header is
non-zero. -/
theorem oversized_write_rejected (P : Proto) (o : Obj) (omd : ObjectMeta) (p : U64)
    (d : List Byte) (hm : read_meta P (some o) = .ok omd) (hv : validMeta omd)
    (ht : omd.object_id.val = (layoutOf omd p).objectno)
    (hbig : omd.params.entry_size.val < d.length) :
    write P (some ⟨p, d⟩) (some o)
        = (if byteAt o.data (layoutOf omd p).offset = Unused then - EFBIG else - EEXIST,
            some o) ∧
      (o.data.length ≤ (layoutOf omd p).offset →
        byteAt o.data (layoutOf omd p).offset = Unused) := by
  refine ⟨?_, fun h => byteAt_of_le _ _ h⟩
  rw [write_eq P o omd p d hm hv ht]
  by_cases hz : byteAt o.data (layoutOf omd p).offset = Unused
  · have h0 : ¬ (byteAt o.data (layoutOf omd p).offset ≠ 0) := fun h => h hz
    rw [if_neg h0, if_pos hbig, if_pos hz]
  · have h0 : byteAt o.data (layoutOf omd p).offset ≠ 0 := hz
    rw [if_pos h0, if_neg hz]

theorem oversized_write_rejected_witness :
    (write exProto (some ⟨0, [1, 2, 3]⟩) (some exSecond)
        = (if byteAt exSecond.data (layoutOf exMeta 0).offset = Unused then - EFBIG
            else - EEXIST, some exSecond) ∧
      (exSecond.data.length ≤ (layoutOf exMeta 0).offset →
        byteAt exSecond.data (layoutOf exMeta 0).offset = Unused)) ∧
    (write exProto (some ⟨4, [1, 2, 3]⟩) (some exSecond)
        = (if byteAt exSecond.data (layoutOf exMeta 4).offset = Unused then - EFBIG
            else - EEXIST, some exSecond) ∧
      (exSecond.data.length ≤ (layoutOf exMeta 4).offset →
        byteAt exSecond.data (layoutOf exMeta 4).offset = Unused)) :=
  ⟨oversized_write_rejected exProto exSecond exMeta 0 [1, 2, 3] (by decide) (by decide)
      (by decide) (by decide),
    oversized_write_rejected exProto exSecond exMeta 4 [1, 2, 3] (by decide) (by decide)
      (by decide) (by decide)⟩

/-- C12. WrongTarget guard: on an existing object whose metadata decodes and has no
zero field, for a position whose computed object number differs from the persisted
`object_id`, `read`, `write` and `invalidate` each return `-EFAULT`; `read` returns
no payload and the object is left as it was, whatever the payload, the force flag
and the object's bytes. -/
theorem wrong_target_guard (P : Proto) (o : Obj) (omd : ObjectMeta) (p : U64)
    (d : List Byte) (force : Bool)
    (hm : read_meta P (some o) = .ok omd) (hv : validMeta omd)
    (hne : omd.object_id.val ≠ (layoutOf omd p).objectno) :
    read P (some ⟨p⟩) (some o) = (- EFAULT, []) ∧
      write P (some ⟨p, d⟩) (some o) = (- EFAULT, some o) ∧
      invalidate P (some ⟨p, force⟩) (some o) = (- EFAULT, some o) := by
  refine ⟨?_, ?_, ?_⟩
  · simp only [read, cls_cxx_stat, hm, lt_self_iff_false, if_false,
      validMeta_not_zero omd hv, ne_eq, hne, not_false_eq_true, if_true]
  · simp only [write, cls_cxx_stat, hm, lt_self_iff_false, if_false,
      validMeta_not_zero omd hv, ne_eq, hne, not_false_eq_true, if_true]
  · simp only [invalidate, cls_cxx_stat, hm, lt_self_iff_false, if_false,
      validMeta_not_zero omd hv, ne_eq, hne, not_false_eq_true, if_true]

theorem wrong_target_guard_witness :
    read exProto (some ⟨1⟩) (some exWritten) = (- EFAULT, []) ∧
      write exProto (some ⟨1, [7]⟩) (some exWritten) = (- EFAULT, some exWritten) ∧
      invalidate exProto (some ⟨1, true⟩) (some exWritten) = (- EFAULT, some exWritten) :=
  wrong_target_guard exProto exWritten exMeta 1 [7] true (by decide) (by decide) (by decide)

/-! ## init: idempotence and mismatch -/

/-- On an existing object `init` only reads: it returns the metadata reader's error,
`-EINVAL` for metadata with a zero field or a field that differs from the request,
and 0 otherwise. -/
theorem init_existing_eq (P : Proto) (r : InitOp) (o : Obj) :
    init P (some r) (some o) =
      match read_meta P (some o) with
      | .error e => (e, some o)
      | .ok omd =>
        if ¬ validMeta omd then (- EINVAL, some o)
        else if omd ≠ r.toMeta then (- EINVAL, some o)
        else (0, some o) := by
  simp only [init, cls_cxx_stat, lt_self_iff_false, false_and, if_false, if_true]
  cases hm : read_meta P (some o) with
  | error e => rfl
  | ok omd =>
    simp only
    by_cases hv : validMeta omd
    · rw [if_neg (validMeta_not_zero omd hv), if_neg (not_not.mpr hv)]
      by_cases he : omd = r.toMeta
      · subst he
        simp [InitOp.toMeta]
      · rw [if_pos he, if_pos]
        by_contra hc
        simp only [not_or, not_not] at hc
        apply he
        obtain ⟨⟨a, b, c⟩, i⟩ := omd
        obtain ⟨⟨a2, b2, c2⟩, i2⟩ := r
        simp only [InitOp.toMeta] at hc ⊢
        obtain ⟨h1, h2, h3, h4⟩ := hc
        subst h1 h2 h3 h4
        rfl
    · have : omd.params.entry_size = 0 ∨ omd.params.stripe_width = 0 ∨
          omd.params.entries_per_object = 0 := by
        unfold validMeta at hv
        by_contra hc
        simp only [not_or] at hc
        exact hv hc
      rw [if_pos this, if_pos hv]

/-- C13. `init` is idempotent: for a request without zero striping parameter (any
object id) and a codec that reads the persisted record back, `init` on a missing
object returns 0 and creates the object with the encoded request as its metadata,
which reads back equal to the request; a second `init` with the same request
returns 0 and leaves the object exactly as the first call left it (no attribute or
byte-range write). -/
theorem init_idempotent (P : Proto) (r : InitOp) (hv : validMeta r.toMeta)
    (hdec : P.decodeMeta (P.encodeMeta r.toMeta) = some r.toMeta)
    (hne : P.encodeMeta r.toMeta ≠ []) :
    init P (some r) none = (0, some ⟨[], [("meta", P.encodeMeta r.toMeta)], []⟩) ∧
      read_meta P (init P (some r) none).2 = .ok r.toMeta ∧
      init P (some r) (init P (some r) none).2 = (0, (init P (some r) none).2) := by
  have h1 : init P (some r) none = (0, some ⟨[], [("meta", P.encodeMeta r.toMeta)], []⟩) := by
    have a1 : ¬ ((- ENOENT : Int) < 0 ∧ (- ENOENT : Int) ≠ - ENOENT) := by decide
    have a2 : ¬ ((- ENOENT : Int) = 0) := by decide
    have hz : ¬ (r.params.entry_size = 0 ∨ r.params.stripe_width = 0 ∨
        r.params.entries_per_object = 0) := validMeta_not_zero r.toMeta hv
    simp only [init, cls_cxx_stat, a1, a2, if_false, cls_cxx_setxattr, Option.getD_none,
      lt_self_iff_false, List.filter_nil, ne_eq, not_true_eq_false, or_self, and_false, hz]
    rfl
  have hm := read_meta_fresh P r.toMeta hdec hne
  refine ⟨h1, ?_, ?_⟩
  · rw [h1]; exact hm
  · rw [h1, init_existing_eq, hm]
    simp only [hv, not_true_eq_false, if_false, ne_eq]

theorem init_idempotent_witness :
    init exProto (some exInit) none = (0, some ⟨[], [("meta", exProto.encodeMeta exInit.toMeta)], []⟩) ∧
      read_meta exProto (init exProto (some exInit) none).2 = .ok exInit.toMeta ∧
      init exProto (some exInit) (init exProto (some exInit) none).2
        = (0, (init exProto (some exInit) none).2) :=
  init_idempotent exProto exInit (by decide) (by decide) (by decide)

/-- A successful `init` leaves an object whose metadata reads back as the request. -/
theorem init_success (P : Proto) (r : InitOp) (hctx st1 : cls_method_context_t)
    (hi : init P (some r) hctx = (0, st1))
    (hdec : P.decodeMeta (P.encodeMeta r.toMeta) = some r.toMeta)
    (hne : P.encodeMeta r.toMeta ≠ []) :
    ∃ o, st1 = some o ∧ read_meta P (some o) = .ok r.toMeta ∧ validMeta r.toMeta := by
  cases hctx with
  | none =>
    obtain ⟨rfl, hv⟩ := init_fresh P r st1 hi
    exact ⟨_, rfl, read_meta_fresh P r.toMeta hdec hne, hv⟩
  | some o =>
    rw [init_existing_eq] at hi
    cases hm : read_meta P (some o) with
    | error e =>
      rw [hm] at hi
      have h0 : e = 0 := congrArg Prod.fst hi
      have := read_meta_error_neg P _ e hm
      omega
    | ok omd =>
      rw [hm] at hi
      simp only at hi
      by_cases hv : validMeta omd
      · rw [if_neg (not_not.mpr hv)] at hi
        by_cases he : omd = r.toMeta
        · rw [if_neg (not_not.mpr he)] at hi
          subst he
          exact ⟨o, (congrArg Prod.snd hi).symm, hm, hv⟩
        · rw [if_pos he] at hi
          have h0 : (- EINVAL : Int) = 0 := congrArg Prod.fst hi
          exact absurd h0 (by decide)
      · rw [if_pos hv] at hi
        have h0 : (- EINVAL : Int) = 0 := congrArg Prod.fst hi
        exact absurd h0 (by decide)

/-- C14. `init` detects geometry disagreement: after an `init` with request `r`
returned success (and with a codec that reads the persisted record back), `init`
with a request that differs from `r` in `entry_size`, `stripe_width`,
`entries_per_object` or `object_id` returns `-EINVAL` and leaves the object, its
metadata included, as it was. -/
theorem init_mismatch (P : Proto) (r r2 : InitOp) (hctx st1 : cls_method_context_t)
    (hi : init P (some r) hctx = (0, st1))
    (hdec : P.decodeMeta (P.encodeMeta r.toMeta) = some r.toMeta)
    (hne : P.encodeMeta r.toMeta ≠ [])
    (hdiff : r2.params.entry_size ≠ r.params.entry_size ∨
      r2.params.stripe_width ≠ r.params.stripe_width ∨
      r2.params.entries_per_object ≠ r.params.entries_per_object ∨
      r2.object_id ≠ r.object_id) :
    init P (some r2) st1 = (- EINVAL, st1) ∧ read_meta P st1 = .ok r.toMeta := by
  obtain ⟨o, rfl, hm, hv⟩ := init_success P r hctx st1 hi hdec hne
  refine ⟨?_, hm⟩
  rw [init_existing_eq, hm]
  simp only [hv, not_true_eq_false, if_false]
  rw [if_pos]
  intro he
  have e1 : r.params = r2.params := congrArg ObjectMeta.params he
  have e2 : r.object_id = r2.object_id := congrArg ObjectMeta.object_id he
  rcases hdiff with h | h | h | h
  · exact h (by rw [e1])
  · exact h (by rw [e1])
  · exact h (by rw [e1])
  · exact h e2.symm

theorem init_mismatch_witness :
    (init exProto (some ⟨⟨2, 4, 3⟩, 0⟩) (some exFreshObj) = (- EINVAL, some exFreshObj) ∧
      read_meta exProto (some exFreshObj) = .ok exInit.toMeta) ∧
    (init exProto (some ⟨⟨2, 4, 2⟩, 4⟩) (some exWritten) = (- EINVAL, some exWritten) ∧
      read_meta exProto (some exWritten) = .ok exInit.toMeta) :=
  ⟨init_mismatch exProto exInit ⟨⟨2, 4, 3⟩, 0⟩ none (some exFreshObj) (by decide) (by decide)
      (by decide) (by decide),
    init_mismatch exProto exInit ⟨⟨2, 4, 2⟩, 4⟩ (some exWritten) (some exWritten) (by decide)
      (by decide) (by decide) (by decide)⟩

/-! ## Metadata: immutability and reader outcomes -/

/-- Every call on an existing object leaves an existing object with the same
attributes and sorted map. -/
theorem exec_attrs (P : Proto) (o : Obj) (c : Call) :
    ∃ o1, (exec P c (some o)).2 = some o1 ∧ o1.xattrs = o.xattrs ∧ o1.omap = o.omap := by
  cases hm : read_meta P (some o) with
  | ok omd =>
    rcases exec_effect P o omd c hm with h | ⟨-, q, d, -, -, -, -, h⟩ | ⟨-, q, f, -, -, -, h⟩
    · exact ⟨o, h, rfl, rfl⟩
    · rw [h]
      exact ⟨_, rfl, rfl, rfl⟩
    · rw [h]
      exact ⟨_, rfl, rfl, rfl⟩
  | error e =>
    refine ⟨o, ?_, rfl, rfl⟩
    cases c with
    | init i => exact init_existing P i o
    | read i => rfl
    | write i =>
      cases i with
      | none => rfl
      | some op => simp only [exec, write, cls_cxx_stat, hm, lt_self_iff_false, if_false]
    | invalidate i =>
      cases i with
      | none => rfl
      | some op => simp only [exec, invalidate, cls_cxx_stat, hm, lt_self_iff_false, if_false]

/-- C16. Object metadata is immutable once created: on an existing object no call to
`init`, `read`, `write` or `invalidate`, with any arguments and any outcome, changes
the attributes; in particular the value of the `"meta"` attribute is the same before
and after, and `init` on an existing object changes nothing at all (it writes the
attribute only on the branch taken when the object does not exist). -/
theorem meta_immutable (P : Proto) (o : Obj) (c : Call) (i : Option InitOp) :
    (∃ o1, (exec P c (some o)).2 = some o1 ∧ o1.xattrs = o.xattrs) ∧
      cls_cxx_getxattr (exec P c (some o)).2 "meta" = cls_cxx_getxattr (some o) "meta" ∧
      read_meta P (exec P c (some o)).2 = read_meta P (some o) ∧
      (init P i (some o)).2 = some o := by
  obtain ⟨o1, h1, hx, -⟩ := exec_attrs P o c
  refine ⟨⟨o1, h1, hx⟩, ?_, ?_, init_existing P i o⟩
  · rw [h1]
    simp only [cls_cxx_getxattr, hx]
  · rw [h1]
    simp only [read_meta, cls_cxx_getxattr, hx]

/-- C17, as the code behaves: `read_meta` returns `-EIO` when the object or the
`"meta"` attribute is absent, when the attribute is present but empty, and when it
fails to decode, so the three outcomes carry the same error code; when the attribute
is present, non-empty and decodes, it returns the decoded metadata. -/
theorem read_meta_outcomes (P : Proto) (o : Obj) :
    read_meta P none = .error (- EIO) ∧
      read_meta P (some o) =
        match o.xattrs.lookup "meta" with
        | none => .error (- EIO)
        | some bl =>
          if bl = [] then .error (- EIO)
          else
            match P.decodeMeta bl with
            | none => .error (- EIO)
            | some omd => .ok omd := by
  constructor
  · have h : (- ENOENT : Int) < 0 := by decide
    simp only [read_meta, cls_cxx_getxattr, h, if_true, or_true]
  · simp only [read_meta, cls_cxx_getxattr]
    generalize o.xattrs.lookup "meta" = l
    cases l with
    | none =>
      have h : (- ENODATA : Int) < 0 := by decide
      simp only [h, if_true, true_or]
    | some bl =>
      have h : ¬ (((bl.length : Nat) : Int) < 0) := by omega
      by_cases hb : bl = []
      · subst hb
        simp
      · have hlen : ¬ (bl.length = 0) := fun e => hb (List.length_eq_zero.mp e)
        simp only [h, if_false, hlen, hb]

/-- C17 fails as stated: on an object without the `"meta"` attribute `read_meta`
returns `-EIO`, the very code it returns for an attribute that is present but empty or
does not decode, and not a not-found code (`-ENOENT`, `-ENODATA`). -/
theorem read_meta_notfound_counterexample :
    read_meta exProto (some exNoMeta) = .error (- EIO) ∧
      read_meta exProto (some exEmptyMeta) = .error (- EIO) ∧
      read_meta exProto (some exBadMeta) = .error (- EIO) ∧
      read_meta exProto (some exNoMeta) = read_meta exProto (some exEmptyMeta) ∧
      cls_cxx_getxattr (some exNoMeta) "meta" = (- ENODATA, []) ∧
      (- EIO : Int) ≠ - ENODATA ∧ (- EIO : Int) ≠ - ENOENT := by
  decide

/-! ## Views -/

theorem u64tostr_zero : u64tostr 0 "view.epoch." = "view.epoch.00000000000000000000" := by
  decide

/-! ## view_init, view_read and atomicity of init -/

/-- C18. `view_init` succeeds exactly once: on an existing object it returns
`-EEXIST` and changes nothing, whatever the request; on a missing object it returns
`-EINVAL` and writes nothing when `num_stripes` or a striping parameter is zero, and
otherwise returns 0 and creates the object with a sorted map of exactly one entry,
key `"view.epoch.00000000000000000000"`, value the encoding of
`View{epoch 0, num_stripes, params}` of the request; every `view_init` on the object
so created returns `-EEXIST`. -/
theorem view_init_once (P : Proto) (op op2 : ViewInitOp) (o : Obj) :
    view_init P (some op) (some o) = (- EEXIST, some o) ∧
      view_init P (some op) none =
        (if op.num_stripes = 0 ∨ op.params.entry_size = 0 ∨ op.params.stripe_width = 0 ∨
            op.params.entries_per_object = 0 then (- EINVAL, none)
          else (0, some ⟨[], [], [("view.epoch.00000000000000000000",
            P.encodeView ⟨0, op.num_stripes, op.params⟩)]⟩)) ∧
      view_init P (some op2) (some ⟨[], [], [("view.epoch.00000000000000000000",
          P.encodeView ⟨0, op.num_stripes, op.params⟩)]⟩)
        = (- EEXIST, some ⟨[], [], [("view.epoch.00000000000000000000",
          P.encodeView ⟨0, op.num_stripes, op.params⟩)]⟩) := by
  have hex : ∀ (x : ViewInitOp) (y : Obj), view_init P (some x) (some y) = (- EEXIST, some y) := by
    intro x y
    have h1 : (0 : Int) ≠ - ENOENT := by decide
    simp only [view_init, cls_cxx_stat, ne_eq, h1, not_false_eq_true, if_true, ge_iff_le,
      le_refl]
  refine ⟨hex op o, ?_, ?_⟩
  · simp only [view_init, cls_cxx_stat, ne_eq, not_true_eq_false, if_false]
    split
    · rfl
    · simp only [cls_cxx_map_set_val, Option.getD_none, lt_self_iff_false, if_false,
        List.filter_nil, u64tostr_zero]
  · exact hex op2 _


/-- One more iteration of the `view_read` loop at an epoch whose key is present and
decodes. -/
theorem view_read_loop_step (P : Proto) (o : Obj) (fuel : Nat) (epoch : U64)
    (acc : List View) (bl : List Byte) (v : View)
    (hk : o.omap.lookup (u64tostr epoch "view.epoch.") = some bl)
    (hd : P.decodeView bl = some v) :
    view_read_loop P (some o) (fuel + 1) epoch acc
      = view_read_loop P (some o) fuel (Fin.ofNat ((epoch.val + 1) % 2 ^ 64)) (acc ++ [v]) := by
  have h1 : ¬ ((0 : Int) < 0 ∧ (0 : Int) ≠ - ENOENT) := by decide
  have h2 : ¬ ((0 : Int) = - ENOENT) := by decide
  simp only [view_read_loop, cls_cxx_map_get_val, hk, h1, h2, if_false, hd]

/-- The `view_read` loop leaves at an epoch whose key is missing. -/
theorem view_read_loop_stop (P : Proto) (o : Obj) (fuel : Nat) (epoch : U64)
    (acc : List View) (hk : o.omap.lookup (u64tostr epoch "view.epoch.") = none) :
    view_read_loop P (some o) (fuel + 1) epoch acc = some (.ok acc) := by
  have h1 : ¬ ((- ENOENT : Int) < 0 ∧ (- ENOENT : Int) ≠ - ENOENT) := by decide
  simp only [view_read_loop, cls_cxx_map_get_val, hk, h1, if_false, if_true]

/-- From `epoch`, with the keys of the next `vs.length` epochs present and decoding to
`vs` and the key after them missing, the loop returns the collected views followed by
`vs`, given more fuel than views. -/
theorem view_read_loop_run (P : Proto) (o : Obj) :
    ∀ (vs : List View) (fuel : Nat) (epoch : U64) (acc : List View),
      epoch.val + vs.length < 2 ^ 64 → vs.length < fuel →
      (∀ i (h : i < vs.length), ∃ bl,
        o.omap.lookup (u64tostr (Fin.ofNat (epoch.val + i)) "view.epoch.") = some bl ∧
        P.decodeView bl = some (vs.get ⟨i, h⟩)) →
      o.omap.lookup (u64tostr (Fin.ofNat (epoch.val + vs.length)) "view.epoch.") = none →
      view_read_loop P (some o) fuel epoch acc = some (.ok (acc ++ vs)) := by
  intro vs
  induction vs with
  | nil =>
    intro fuel epoch acc _ hf _ hend
    obtain ⟨f, rfl⟩ : ∃ f, fuel = f + 1 := ⟨fuel - 1, by simp at hf; omega⟩
    have he : (Fin.ofNat (epoch.val + 0) : U64) = epoch := by
      apply Fin.ext
      simp only [Nat.add_zero, Fin.ofNat, Fin.val_mk]
      exact Nat.mod_eq_of_lt epoch.isLt
    simp only [List.length_nil] at hend
    rw [he] at hend
    rw [view_read_loop_stop P o f epoch acc hend, List.append_nil]
  | cons v vs ih =>
    intro fuel epoch acc hb hf hrun hend
    simp only [List.length_cons] at hb hf hend
    obtain ⟨f, rfl⟩ : ∃ f, fuel = f + 1 := ⟨fuel - 1, by omega⟩
    have he : (Fin.ofNat (epoch.val + 0) : U64) = epoch := by
      apply Fin.ext
      simp only [Nat.add_zero, Fin.ofNat, Fin.val_mk]
      exact Nat.mod_eq_of_lt epoch.isLt
    obtain ⟨bl, hk, hd⟩ := hrun 0 (by simp)
    rw [he] at hk
    have hd : P.decodeView bl = some v := hd
    rw [view_read_loop_step P o f epoch acc bl v hk hd]
    have hnext : ((Fin.ofNat ((epoch.val + 1) % 2 ^ 64) : U64)).val = epoch.val + 1 := by
      simp only [Fin.ofNat, Fin.val_mk]
      rw [Nat.mod_eq_of_lt (by omega), Nat.mod_eq_of_lt (by omega)]
    have := ih f (Fin.ofNat ((epoch.val + 1) % 2 ^ 64)) (acc ++ [v])
      (by rw [hnext]; omega) (by omega)
      (by
        intro i h
        obtain ⟨bl2, hk2, hd2⟩ := hrun (i + 1) (by simp; omega)
        refine ⟨bl2, ?_, ?_⟩
        · rw [hnext]
          have : epoch.val + 1 + i = epoch.val + (i + 1) := by omega
          rw [this]
          exact hk2
        · simpa using hd2)
      (by
        rw [hnext]
        have : epoch.val + 1 + vs.length = epoch.val + (vs.length + 1) := by omega
        rw [this]
        exact hend)
    rw [this, List.append_assoc]
    rfl


/-- C19 fails as stated: with views stored under the keys of epochs `2 ^ 64 - 1` and
0 and no other key, `view_read` with `min_epoch = 2 ^ 64 - 1` returns two views, the
one of epoch `2 ^ 64 - 1` and then the one of epoch 0: the scan does not stop at a
first epoch at or above `min_epoch` without a key (there is none), and the result is
not in increasing epoch order. -/
theorem view_read_wrap_counterexample :
    view_read exWideProto 3 (some ⟨18446744073709551615⟩) (some exWrapObj)
        = some (0, [⟨18446744073709551615, 3, exParams⟩, ⟨0, 3, exParams⟩]) ∧
      exWrapObj.omap.lookup (u64tostr 18446744073709551615 "view.epoch.")
        = some (exEncodeViewWide ⟨18446744073709551615, 3, exParams⟩) ∧
      exWrapObj.omap.lookup (u64tostr 0 "view.epoch.")
        = some (exEncodeViewWide ⟨0, 3, exParams⟩) ∧
      exWrapObj.omap.lookup (u64tostr 1 "view.epoch.") = none ∧
      exWideProto.decodeView (exEncodeViewWide ⟨18446744073709551615, 3, exParams⟩)
        = some ⟨18446744073709551615, 3, exParams⟩ ∧
      exWideProto.decodeView (exEncodeViewWide ⟨0, 3, exParams⟩) = some ⟨0, 3, exParams⟩ ∧
      ¬ ((18446744073709551615 : U64) < 0) ∧
      (Fin.ofNat ((18446744073709551615 + 1) % 2 ^ 64) : U64) = 0 := by
  decide

/-- The key index after one `epoch++`, counted modulo `2 ^ 64`. -/
theorem epoch_succ_add (epoch : U64) (j : Nat) :
    (Fin.ofNat ((Fin.ofNat ((epoch.val + 1) % 2 ^ 64) : U64).val + j) : U64)
      = Fin.ofNat (epoch.val + (j + 1)) := by
  apply Fin.ext
  simp only [Fin.ofNat, Fin.val_mk]
  omega

/-- The loop of `view_read` with `epoch++` wrapping: from `epoch`, with the keys of
the next `vs.length` epochs (modulo `2 ^ 64`) present and decoding to `vs` and the key
after them missing, the loop returns the collected views followed by `vs`, given more
fuel than views. -/
theorem view_read_loop_wrap (P : Proto) (o : Obj) :
    ∀ (vs : List View) (fuel : Nat) (epoch : U64) (acc : List View),
      vs.length < fuel →
      (∀ i (h : i < vs.length), ∃ bl,
        o.omap.lookup (u64tostr (Fin.ofNat (epoch.val + i)) "view.epoch.") = some bl ∧
        P.decodeView bl = some (vs.get ⟨i, h⟩)) →
      o.omap.lookup (u64tostr (Fin.ofNat (epoch.val + vs.length)) "view.epoch.") = none →
      view_read_loop P (some o) fuel epoch acc = some (.ok (acc ++ vs)) := by
  intro vs
  induction vs with
  | nil =>
    intro fuel epoch acc hf _ hend
    obtain ⟨f, rfl⟩ : ∃ f, fuel = f + 1 := ⟨fuel - 1, by simp at hf; omega⟩
    have he : (Fin.ofNat (epoch.val + 0) : U64) = epoch := by
      apply Fin.ext
      simp only [Nat.add_zero, Fin.ofNat, Fin.val_mk]
      exact Nat.mod_eq_of_lt epoch.isLt
    simp only [List.length_nil] at hend
    rw [he] at hend
    rw [view_read_loop_stop P o f epoch acc hend, List.append_nil]
  | cons v vs ih =>
    intro fuel epoch acc hf hrun hend
    simp only [List.length_cons] at hf hend
    obtain ⟨f, rfl⟩ : ∃ f, fuel = f + 1 := ⟨fuel - 1, by omega⟩
    have he : (Fin.ofNat (epoch.val + 0) : U64) = epoch := by
      apply Fin.ext
      simp only [Nat.add_zero, Fin.ofNat, Fin.val_mk]
      exact Nat.mod_eq_of_lt epoch.isLt
    obtain ⟨bl, hk, hd⟩ := hrun 0 (by simp)
    rw [he] at hk
    have hd : P.decodeView bl = some v := hd
    rw [view_read_loop_step P o f epoch acc bl v hk hd]
    have := ih f (Fin.ofNat ((epoch.val + 1) % 2 ^ 64)) (acc ++ [v]) (by omega)
      (by
        intro i h
        obtain ⟨bl2, hk2, hd2⟩ := hrun (i + 1) (by simp; omega)
        refine ⟨bl2, ?_, ?_⟩
        · rw [epoch_succ_add]
          exact hk2
        · simpa using hd2)
      (by
        rw [epoch_succ_add]
        exact hend)
    rw [this, List.append_assoc]
    rfl


/-- C19, as the code behaves: on an existing object, when the keys of the epochs
`min_epoch, min_epoch + 1, ...`, counted modulo `2 ^ 64` as `epoch++` does, hold
values that decode to the views `vs`, in this order, and the key of the next epoch is
missing, `view_read` (its loop given more iterations than there are views) returns
exactly `vs` with return code 0 when the run is not empty and `-EINVAL` with no views
when it is empty; it returns `-EINVAL` exactly when the run is empty.  When the run
does not pass the last epoch (`min_epoch + |vs| <= 2 ^ 64`) no wrap occurs: the `i`-th
view is the one stored under the key of epoch `min_epoch + i`, so the epochs increase
strictly and without gaps. -/
theorem view_read_contiguous (P : Proto) (o : Obj) (min_epoch : U64) (vs : List View)
    (fuel : Nat) (hf : vs.length < fuel)
    (hrun : ∀ i (h : i < vs.length), ∃ bl,
      o.omap.lookup (u64tostr (Fin.ofNat (min_epoch.val + i)) "view.epoch.") = some bl ∧
      P.decodeView bl = some (vs.get ⟨i, h⟩))
    (hend : o.omap.lookup
      (u64tostr (Fin.ofNat (min_epoch.val + vs.length)) "view.epoch.") = none) :
    view_read P fuel (some ⟨min_epoch⟩) (some o)
        = some (if vs = [] then (- EINVAL, []) else (0, vs)) ∧
      (Option.map Prod.fst (view_read P fuel (some ⟨min_epoch⟩) (some o))
        = some (- EINVAL) ↔ vs = []) ∧
      (min_epoch.val + vs.length ≤ 2 ^ 64 → ∀ i, i < vs.length →
        (Fin.ofNat (min_epoch.val + i) : U64).val = min_epoch.val + i) := by
  have hl := view_read_loop_wrap P o vs fuel min_epoch [] hf hrun hend
  have hr : view_read P fuel (some ⟨min_epoch⟩) (some o)
      = some (if vs = [] then (- EINVAL, []) else (0, vs)) := by
    simp only [view_read, cls_cxx_stat, ne_eq, not_true_eq_false, if_false, hl,
      List.nil_append, List.length_eq_zero]
    split <;> rfl
  refine ⟨hr, ?_, ?_⟩
  · rw [hr]
    by_cases hv : vs = []
    · simp only [hv, if_true, Option.map_some']
    · simp only [hv, if_false, Option.map_some', Option.some.injEq, iff_false]
      decide
  · intro hb i hi
    simp only [Fin.ofNat, Fin.val_mk]
    exact Nat.mod_eq_of_lt (by omega)

theorem view_read_contiguous_witness :
    view_read exViewProto 2 (some ⟨0⟩) (some exViewObj)
        = some (if [(⟨0, 3, exParams⟩ : View)] = [] then (- EINVAL, [])
            else (0, [⟨0, 3, exParams⟩])) ∧
      view_read exViewProto 1 (some ⟨1⟩) (some exViewObj)
        = some (if ([] : List View) = [] then (- EINVAL, []) else (0, [])) ∧
      view_read exWideProto 2 (some ⟨18446744073709551615⟩) (some exLastObj)
        = some (if [(⟨18446744073709551615, 3, exParams⟩ : View)] = [] then (- EINVAL, [])
            else (0, [⟨18446744073709551615, 3, exParams⟩])) :=
  ⟨(view_read_contiguous exViewProto exViewObj 0 [⟨0, 3, exParams⟩] 2 (by decide)
      (by
        intro i h
        have h0 : i = 0 := by
          simp only [List.length_singleton] at h
          omega
        subst h0
        have hd : exViewProto.decodeView (exEncodeView ⟨0, 3, exParams⟩)
            = some ⟨0, 3, exParams⟩ := by decide
        exact ⟨exEncodeView ⟨0, 3, exParams⟩, by decide, hd⟩)
      (by decide)).1,
    (view_read_contiguous exViewProto exViewObj 1 [] 1 (by decide)
      (by
        intro i h
        exact absurd h (Nat.not_lt_zero i))
      (by decide)).1,
    (view_read_contiguous exWideProto exLastObj 18446744073709551615
      [⟨18446744073709551615, 3, exParams⟩] 2 (by decide)
      (by
        intro i h
        have h0 : i = 0 := by
          simp only [List.length_singleton] at h
          omega
        subst h0
        have hd : exWideProto.decodeView
            (exEncodeViewWide ⟨18446744073709551615, 3, exParams⟩)
            = some ⟨18446744073709551615, 3, exParams⟩ := by decide
        exact ⟨exEncodeViewWide ⟨18446744073709551615, 3, exParams⟩, by decide, hd⟩)
      (by decide)).1⟩

/-- C15, the failing input: `init` with `entry_size = 0` on a missing object returns
`-EINVAL` and yet has created the object with the zero-field record as its `"meta"`
attribute, so the store after the failed call differs from the store before it; from
then on every `init`, also one with valid parameters, returns `-EINVAL` and a read
returns `-EIO`.  The sibling handler `view_init` validates before it writes: with a
zero field on a missing object it returns `-EINVAL` and creates nothing. -/
theorem init_zero_param_leaves_meta :
    init exProto (some exZeroInit) none = (- EINVAL, some exZeroObj) ∧
      (some exZeroObj : cls_method_context_t) ≠ none ∧
      cls_cxx_getxattr (some exZeroObj) "meta" = (16, exEncodeMeta ⟨⟨0, 4, 2⟩, 0⟩) ∧
      init exProto (some exInit) (some exZeroObj) = (- EINVAL, some exZeroObj) ∧
      read exProto (some ⟨0⟩) (some exZeroObj) = (- EIO, []) ∧
      view_init exViewProto (some ⟨0, exParams⟩) none = (- EINVAL, none) := by
  decide

/-! ## View keys -/

theorem length_fixedDigits (w n : Nat) : (fixedDigits w n).length = w := by
  induction w generalizing n with
  | zero => rfl
  | succ w ih => simp [fixedDigits, ih]

theorem fixedDigits_zero (w : Nat) : fixedDigits w 0 = List.replicate w '0' := by
  induction w with
  | zero => rfl
  | succ w ih =>
    simp only [fixedDigits, Nat.zero_div, ih, Nat.zero_mod]
    rw [List.replicate_succ']
    rfl

theorem toDigitsCore_acc (fuel : Nat) : ∀ (n : Nat) (ds : List Char),
    Nat.toDigitsCore 10 fuel n ds = Nat.toDigitsCore 10 fuel n [] ++ ds := by
  induction fuel with
  | zero => intro n ds; rfl
  | succ f ih =>
    intro n ds
    simp only [Nat.toDigitsCore]
    split
    · rfl
    · rw [ih (n / 10) (Nat.digitChar (n % 10) :: ds), ih (n / 10) [Nat.digitChar (n % 10)]]
      simp

/-- Left-padding the printed decimal digits with zeros to width `w` gives the `w`
fixed digits, when the number fits. -/
theorem pad_toDigitsCore (w : Nat) : ∀ (fuel n : Nat), n < fuel → n < 10 ^ (w + 1) →
    List.replicate (w + 1 - (Nat.toDigitsCore 10 fuel n []).length) '0'
        ++ Nat.toDigitsCore 10 fuel n [] = fixedDigits (w + 1) n := by
  induction w with
  | zero =>
    intro fuel n hf hn
    obtain ⟨f, rfl⟩ : ∃ f, fuel = f + 1 := ⟨fuel - 1, by omega⟩
    have h0 : n / 10 = 0 := by omega
    simp only [Nat.toDigitsCore, h0, if_true, List.length_singleton, fixedDigits]
    rfl
  | succ w ih =>
    intro fuel n hf hn
    obtain ⟨f, rfl⟩ : ∃ f, fuel = f + 1 := ⟨fuel - 1, by omega⟩
    simp only [Nat.toDigitsCore]
    by_cases h0 : n / 10 = 0
    · simp only [h0, if_true, List.length_singleton]
      rw [fixedDigits, h0, fixedDigits_zero]
      have : w + 1 + 1 - 1 = w + 1 := by omega
      rw [this]
    · simp only [h0, if_false]
      rw [toDigitsCore_acc f (n / 10) [Nat.digitChar (n % 10)]]
      have hn2 : n / 10 < 10 ^ (w + 1) := by
        rw [Nat.div_lt_iff_lt_mul (by decide)]
        rw [Nat.pow_succ] at hn
        exact hn
      have := ih f (n / 10) (by omega) hn2
      rw [fixedDigits, ← this]
      simp only [List.length_append, List.length_singleton, List.append_assoc]
      have e : w + 1 + 1 - ((Nat.toDigitsCore 10 f (n / 10) []).length + 1)
          = w + 1 - (Nat.toDigitsCore 10 f (n / 10) []).length := by omega
      rw [e]

/-- The digit field of `u64tostr` is the 20 fixed digits of the value. -/
theorem u64tostr_eq (value : U64) (pfx : String) :
    u64tostr value pfx = ⟨pfx.data ++ fixedDigits 20 value.val⟩ := by
  have h := pad_toDigitsCore 19 (value.val + 1) value.val (by omega)
    (lt_of_lt_of_le value.isLt (by decide))
  simp only [u64tostr, Nat.toDigits, List.append_assoc]
  rw [h]


theorem digitChar_lt_iff (d e : Nat) (hd : d < 10) (he : e < 10) :
    Nat.digitChar d < Nat.digitChar e ↔ d < e := by
  interval_cases d <;> interval_cases e <;> decide

theorem digitChar_isDigit (d : Nat) (hd : d < 10) : (Nat.digitChar d).isDigit = true := by
  interval_cases d <;> decide

theorem char_eq_of_not_lt (c e : Char) (h1 : ¬ c < e) (h2 : ¬ e < c) : c = e :=
  le_antisymm (not_lt.mp h2) (not_lt.mp h1)

theorem char_lt_irrefl (c : Char) : ¬ c < c := lt_irrefl c

theorem list_lt_irrefl : ∀ l : List Char, ¬ List.lt l l := by
  intro l
  induction l with
  | nil => intro h; cases h
  | cons c l ih =>
    intro h
    cases h with
    | head _ _ h1 => exact char_lt_irrefl c h1
    | tail _ _ h3 => exact ih h3

/-- Lexicographic comparison of two lists that start with blocks of equal length. -/
theorem list_lt_append : ∀ (xs ys s t : List Char), xs.length = ys.length →
    (List.lt (xs ++ s) (ys ++ t) ↔ List.lt xs ys ∨ (xs = ys ∧ List.lt s t)) := by
  intro xs
  induction xs with
  | nil =>
    intro ys s t hl
    cases ys with
    | nil =>
      simp only [List.nil_append, true_and]
      constructor
      · exact fun h => Or.inr h
      · rintro (h | h)
        · cases h
        · exact h
    | cons y ys => simp at hl
  | cons x xs ih =>
    intro ys s t hl
    cases ys with
    | nil => simp at hl
    | cons y ys =>
      have hl2 : xs.length = ys.length := by simpa using hl
      have hi := ih ys s t hl2
      constructor
      · intro h
        cases h with
        | head _ _ h1 => exact Or.inl (List.lt.head _ _ h1)
        | tail h1 h2 h3 =>
          rcases hi.mp h3 with h4 | ⟨h4, h5⟩
          · exact Or.inl (List.lt.tail h1 h2 h4)
          · right
            rw [char_eq_of_not_lt x y h1 h2, h4]
            exact ⟨rfl, h5⟩
      · rintro (h | ⟨h, h5⟩)
        · cases h with
          | head _ _ h1 => exact List.lt.head _ _ h1
          | tail h1 h2 h3 => exact List.lt.tail h1 h2 (hi.mpr (Or.inl h3))
        · cases h
          exact List.lt.tail (char_lt_irrefl x) (char_lt_irrefl x) (hi.mpr (Or.inr ⟨rfl, h5⟩))

theorem singleton_lt_iff (c e : Char) : List.lt [c] [e] ↔ c < e := by
  constructor
  · intro h
    cases h with
    | head _ _ h1 => exact h1
    | tail _ _ h3 => cases h3
  · intro h
    exact List.lt.head _ _ h

/-- Fixed-width decimal digits compare as the numbers do. -/
theorem fixedDigits_lt_iff (w : Nat) : ∀ (a b : Nat), a < 10 ^ w → b < 10 ^ w →
    (List.lt (fixedDigits w a) (fixedDigits w b) ↔ a < b) := by
  induction w with
  | zero =>
    intro a b ha hb
    simp only [pow_zero, Nat.lt_one_iff] at ha hb
    subst ha hb
    simp only [fixedDigits, lt_self_iff_false, iff_false]
    exact list_lt_irrefl []
  | succ w ih =>
    intro a b ha hb
    have ha2 : a / 10 < 10 ^ w := by
      rw [Nat.div_lt_iff_lt_mul (by decide)]
      rw [Nat.pow_succ] at ha
      exact ha
    have hb2 : b / 10 < 10 ^ w := by
      rw [Nat.div_lt_iff_lt_mul (by decide)]
      rw [Nat.pow_succ] at hb
      exact hb
    have hi := ih (a / 10) (b / 10) ha2 hb2
    have hi2 := ih (b / 10) (a / 10) hb2 ha2
    simp only [fixedDigits]
    rw [list_lt_append _ _ _ _ (by rw [length_fixedDigits, length_fixedDigits]),
      singleton_lt_iff, digitChar_lt_iff _ _ (Nat.mod_lt _ (by decide)) (Nat.mod_lt _ (by decide)),
      hi]
    constructor
    · rintro (h | ⟨h, h5⟩)
      · omega
      · have h6 : a / 10 = b / 10 := by
          rcases Nat.lt_trichotomy (a / 10) (b / 10) with h7 | h7 | h7
          · have := hi.mpr h7
            rw [h] at this
            exact absurd this (list_lt_irrefl _)
          · exact h7
          · have := hi2.mpr h7
            rw [h] at this
            exact absurd this (list_lt_irrefl _)
        omega
    · intro h
      by_cases h6 : a / 10 < b / 10
      · exact Or.inl h6
      · right
        have h7 : a / 10 = b / 10 := by omega
        rw [h7]
        exact ⟨rfl, by omega⟩

theorem fixedDigits_isDigit (w : Nat) : ∀ (n : Nat) (c : Char), c ∈ fixedDigits w n →
    c.isDigit = true := by
  induction w with
  | zero => intro n c h; simp [fixedDigits] at h
  | succ w ih =>
    intro n c h
    simp only [fixedDigits, List.mem_append, List.mem_singleton] at h
    rcases h with h | h
    · exact ih _ c h
    · rw [h]
      exact digitChar_isDigit _ (Nat.mod_lt _ (by decide))

/-- C20. View keys preserve epoch order: for 64-bit epochs `a` and `b`,
`u64tostr(a, "view.epoch.")` is the prefix followed by exactly 20 decimal digits
(zero-padded and never wider: `2 ^ 64 - 1` prints as its own 20 digits), and it is
lexicographically less than `u64tostr(b, "view.epoch.")` if and only if `a < b`, both
for the lexicographic order of the character lists and for `<` on strings; so equal
keys come from equal epochs. -/
theorem view_key_order (a b : U64) :
    u64tostr a "view.epoch." = ⟨"view.epoch.".data ++ fixedDigits 20 a.val⟩ ∧
      (fixedDigits 20 a.val).length = 20 ∧
      (∀ c ∈ fixedDigits 20 a.val, c.isDigit = true) ∧
      (u64tostr a "view.epoch.").length = 31 ∧
      u64tostr 18446744073709551615 "view.epoch." = "view.epoch.18446744073709551615" ∧
      u64tostr 7 "view.epoch." = "view.epoch.00000000000000000007" ∧
      (List.lt (u64tostr a "view.epoch.").data (u64tostr b "view.epoch.").data ↔ a < b) ∧
      (u64tostr a "view.epoch." < u64tostr b "view.epoch." ↔ a < b) ∧
      (u64tostr a "view.epoch." = u64tostr b "view.epoch." ↔ a = b) := by
  have hlex : ∀ x y : U64, (List.lt (u64tostr x "view.epoch.").data
      (u64tostr y "view.epoch.").data ↔ x < y) := by
    intro x y
    rw [u64tostr_eq x, u64tostr_eq y]
    show List.lt ("view.epoch.".data ++ fixedDigits 20 x.val)
      ("view.epoch.".data ++ fixedDigits 20 y.val) ↔ x < y
    rw [list_lt_append _ _ _ _ rfl,
      fixedDigits_lt_iff 20 x.val y.val (lt_of_lt_of_le x.isLt (by decide))
        (lt_of_lt_of_le y.isLt (by decide))]
    constructor
    · rintro (h | ⟨-, h⟩)
      · exact absurd h (list_lt_irrefl _)
      · exact h
    · intro h
      exact Or.inr ⟨rfl, h⟩
  refine ⟨u64tostr_eq a _, length_fixedDigits 20 a.val, fixedDigits_isDigit 20 a.val, ?_,
    by decide, by decide, hlex a b, ?_, ?_⟩
  · rw [u64tostr_eq a]
    show ("view.epoch.".data ++ fixedDigits 20 a.val).length = 31
    rw [List.length_append, length_fixedDigits]
    rfl
  · rw [String.lt_iff_toList_lt]
    show List.Lex (· < ·) (u64tostr a "view.epoch.").data (u64tostr b "view.epoch.").data ↔ _
    rw [← List.lt_iff_lex_lt]
    exact hlex a b
  · constructor
    · intro h
      rcases lt_trichotomy a b with h1 | h1 | h1
      · have h2 := (hlex a b).mpr h1
        rw [h] at h2
        exact absurd h2 (list_lt_irrefl _)
      · exact h1
      · have h2 := (hlex b a).mpr h1
        rw [h] at h2
        exact absurd h2 (list_lt_irrefl _)
    · intro h
      rw [h]

/-! ## Object sets and storage sharing -/

/-- C21. Object-set wrap of the layout: with `stripe_width = 4`,
`entries_per_object = 2` and any non-zero `entry_size`, position 0 lies in object 0 at
offset 0, position 4 in object 0 at offset `slot_size`, and position 8 in object 4 at
offset 0; and for all non-zero parameters and positions `p`, `q` with
`q = p + stripe_width * entries_per_object` (so the sum is below `2 ^ 64`), the layout
of `q` has the offset and slot size of the layout of `p` and an object number larger
by exactly `stripe_width`. -/
theorem layout_object_set_wrap (p q : U64) (sw epo es : U32)
    (hsw : sw ≠ 0) (hepo : epo ≠ 0) (hes : es ≠ 0)
    (hq : q.val = p.val + sw.val * epo.val) :
    (calc_layout 0 4 2 es).objectno = 0 ∧ (calc_layout 0 4 2 es).offset = 0 ∧
      (calc_layout 4 4 2 es).objectno = 0 ∧
      (calc_layout 4 4 2 es).offset = (calc_layout 4 4 2 es).slot_size ∧
      (calc_layout 4 4 2 es).slot_size = 1 + es.val ∧
      (calc_layout 8 4 2 es).objectno = 4 ∧ (calc_layout 8 4 2 es).offset = 0 ∧
      (calc_layout q sw epo es).offset = (calc_layout p sw epo es).offset ∧
      (calc_layout q sw epo es).slot_size = (calc_layout p sw epo es).slot_size ∧
      (calc_layout q sw epo es).objectno = (calc_layout p sw epo es).objectno + sw.val := by
  have h2 : (2 : U32) ≠ 0 := by decide
  have hsw0 := U32_ne_zero_pos hsw
  have hepo0 := U32_ne_zero_pos hepo
  rw [calc_layout_val 0 4 2 es h2, calc_layout_val 4 4 2 es h2, calc_layout_val 8 4 2 es h2,
    calc_layout_val p sw epo es hepo, calc_layout_val q sw epo es hepo]
  have e1 : q.val / sw.val = p.val / sw.val + epo.val := by
    rw [hq, Nat.add_mul_div_left _ _ hsw0]
  have e2 : q.val % sw.val = p.val % sw.val := by
    rw [hq, Nat.add_mul_mod_self_left]
  have e3 : (p.val / sw.val + epo.val) % epo.val = p.val / sw.val % epo.val :=
    Nat.add_mod_right _ _
  have e4 : (p.val / sw.val + epo.val) / epo.val = p.val / sw.val / epo.val + 1 :=
    Nat.add_div_right _ hepo0
  refine ⟨rfl, ?_, rfl, ?_, rfl, rfl, ?_, ?_, rfl, ?_⟩
  · show (0 : U64).val / (4 : U32).val % (2 : U32).val * (1 + es.val) = 0
    simp
  · show (4 : U64).val / (4 : U32).val % (2 : U32).val * (1 + es.val) = 1 + es.val
    have : (4 : U64).val / (4 : U32).val % (2 : U32).val = 1 := by decide
    rw [this, Nat.one_mul]
  · show (8 : U64).val / (4 : U32).val % (2 : U32).val * (1 + es.val) = 0
    have : (8 : U64).val / (4 : U32).val % (2 : U32).val = 0 := by decide
    rw [this, Nat.zero_mul]
  · show q.val / sw.val % epo.val * (1 + es.val) = p.val / sw.val % epo.val * (1 + es.val)
    rw [e1, e3]
  · show q.val / sw.val / epo.val * sw.val + q.val % sw.val
      = p.val / sw.val / epo.val * sw.val + p.val % sw.val + sw.val
    rw [e1, e2, e4, Nat.add_mul, Nat.one_mul]
    omega

theorem layout_object_set_wrap_witness :
    (calc_layout 0 4 2 7).objectno = 0 ∧ (calc_layout 0 4 2 7).offset = 0 ∧
      (calc_layout 4 4 2 7).objectno = 0 ∧
      (calc_layout 4 4 2 7).offset = (calc_layout 4 4 2 7).slot_size ∧
      (calc_layout 4 4 2 7).slot_size = 1 + (7 : U32).val ∧
      (calc_layout 8 4 2 7).objectno = 4 ∧ (calc_layout 8 4 2 7).offset = 0 ∧
      (calc_layout 13 4 2 7).offset = (calc_layout 5 4 2 7).offset ∧
      (calc_layout 13 4 2 7).slot_size = (calc_layout 5 4 2 7).slot_size ∧
      (calc_layout 13 4 2 7).objectno = (calc_layout 5 4 2 7).objectno + (4 : U32).val :=
  layout_object_set_wrap 5 13 4 2 7 (by decide) (by decide) (by decide) (by decide)

/-- C22. The layout never makes two positions share storage: for non-zero
parameters and 64-bit positions `p ≠ q`, the pairs (object number, offset) differ,
and when the object numbers are equal the byte ranges
`[offset, offset + slot_size)` of `p` and `q` are disjoint. -/
theorem layout_no_shared_storage (p q : U64) (sw epo es : U32)
    (hsw : sw ≠ 0) (hepo : epo ≠ 0) (hes : es ≠ 0) (hne : p ≠ q) :
    ((calc_layout p sw epo es).objectno, (calc_layout p sw epo es).offset)
        ≠ ((calc_layout q sw epo es).objectno, (calc_layout q sw epo es).offset) ∧
      ((calc_layout p sw epo es).objectno = (calc_layout q sw epo es).objectno →
        (calc_layout p sw epo es).slot_size = (calc_layout q sw epo es).slot_size ∧
        0 < (calc_layout p sw epo es).slot_size ∧
        ((calc_layout p sw epo es).offset + (calc_layout p sw epo es).slot_size
            ≤ (calc_layout q sw epo es).offset ∨
          (calc_layout q sw epo es).offset + (calc_layout q sw epo es).slot_size
            ≤ (calc_layout p sw epo es).offset) ∧
        ∀ i, (calc_layout p sw epo es).offset ≤ i →
          i < (calc_layout p sw epo es).offset + (calc_layout p sw epo es).slot_size →
          ¬ ((calc_layout q sw epo es).offset ≤ i ∧
            i < (calc_layout q sw epo es).offset + (calc_layout q sw epo es).slot_size)) := by
  have hes0 := U32_ne_zero_pos hes
  constructor
  · intro h
    have h1 := congrArg Prod.fst h
    have h2 := congrArg Prod.snd h
    exact hne (layout_inj p q sw epo es hsw hepo h1 h2)
  · intro hobj
    have hoff : (calc_layout p sw epo es).offset ≠ (calc_layout q sw epo es).offset :=
      fun e => hne (layout_inj p q sw epo es hsw hepo hobj e)
    rw [calc_layout_val p sw epo es hepo, calc_layout_val q sw epo es hepo] at hoff ⊢
    simp only at hoff ⊢
    have hslot : p.val / sw.val % epo.val ≠ q.val / sw.val % epo.val := by
      intro e
      exact hoff (by rw [e])
    have hdis := slot_disjoint (p.val / sw.val % epo.val) (q.val / sw.val % epo.val)
      (1 + es.val)
    refine ⟨trivial, by omega, ?_, fun i h1 h2 => hdis i hslot h1 h2⟩
    rcases Nat.lt_or_gt_of_ne hslot with h | h
    · left
      have : (p.val / sw.val % epo.val + 1) * (1 + es.val)
          ≤ q.val / sw.val % epo.val * (1 + es.val) := Nat.mul_le_mul_right _ h
      rw [Nat.add_mul, Nat.one_mul] at this
      exact this
    · right
      have : (q.val / sw.val % epo.val + 1) * (1 + es.val)
          ≤ p.val / sw.val % epo.val * (1 + es.val) := Nat.mul_le_mul_right _ h
      rw [Nat.add_mul, Nat.one_mul] at this
      exact this

theorem layout_no_shared_storage_witness :
    ((calc_layout 0 4 2 7).objectno, (calc_layout 0 4 2 7).offset)
        ≠ ((calc_layout 4 4 2 7).objectno, (calc_layout 4 4 2 7).offset) ∧
      (calc_layout 0 4 2 7).objectno = (calc_layout 4 4 2 7).objectno ∧
      ((calc_layout 0 4 2 7).offset + (calc_layout 0 4 2 7).slot_size
          ≤ (calc_layout 4 4 2 7).offset ∨
        (calc_layout 4 4 2 7).offset + (calc_layout 4 4 2 7).slot_size
          ≤ (calc_layout 0 4 2 7).offset) :=
  ⟨(layout_no_shared_storage 0 4 4 2 7 (by decide) (by decide) (by decide) (by decide)).1,
    by decide,
    ((layout_no_shared_storage 0 4 4 2 7 (by decide) (by decide) (by decide) (by decide)).2
      (by decide)).2.2.1⟩

end Zlog
